import Mathlib

/-!
A shallow embedding of `src/link_crawler.py`: a recursive web crawler that
fetches pages, extracts anchor hrefs and mailto addresses, normalizes URLs
(resolve against the page URL, then keep only `scheme + "://" + netloc + path`),
and recurses over newly discovered internal links under a visit budget.

URL handling mirrors CPython's `urllib.parse` (`urlsplit`, `urljoin`,
`urlunsplit`) restricted to inputs without bracketed IPv6 hosts, without ASCII
control characters (which recent CPython strips), and without `;` path
parameters: on such inputs the model follows the library code line by line.
The network is abstracted as a function from a URL to the optional list of
href attribute values found on the fetched page (`none` models a request or
parse exception).  The script's global sets are modeled as insertion-ordered
duplicate-free lists inside an explicit state record; the state additionally
carries a `fetchLog` (one entry per `requests.get` attempt, in order) and a
`failures` list (one entry per printed fetch-error diagnostic) so that
fetch-count and diagnostic claims can be stated.
-/

namespace LinkCrawler

/-- ASCII scheme characters: letters, digits, `+`, `-`, `.`
(CPython `scheme_chars`). -/
def schemeChar (c : Char) : Bool :=
  c.isAlpha || c.isDigit || c == '+' || c == '-' || c == '.'

/-- ASCII lowercasing as CPython's `str.lower` acts on scheme candidates (all
scheme characters are ASCII, so the table covers every reachable case);
other characters are kept unchanged. -/
def lowerChar : Char → Char
  | 'A' => 'a'
  | 'B' => 'b'
  | 'C' => 'c'
  | 'D' => 'd'
  | 'E' => 'e'
  | 'F' => 'f'
  | 'G' => 'g'
  | 'H' => 'h'
  | 'I' => 'i'
  | 'J' => 'j'
  | 'K' => 'k'
  | 'L' => 'l'
  | 'M' => 'm'
  | 'N' => 'n'
  | 'O' => 'o'
  | 'P' => 'p'
  | 'Q' => 'q'
  | 'R' => 'r'
  | 'S' => 's'
  | 'T' => 't'
  | 'U' => 'u'
  | 'V' => 'v'
  | 'W' => 'w'
  | 'X' => 'x'
  | 'Y' => 'y'
  | 'Z' => 'z'
  | c => c

/-- Split at the first occurrence of `d`: the part before it and, when `d`
occurs at all, the part after it. -/
def splitOnFirst (d : Char) : List Char → List Char × Option (List Char)
  | [] => ([], none)
  | c :: cs =>
    if c == d then ([], some cs)
    else
      let r := splitOnFirst d cs
      (c :: r.1, r.2)

/-- CPython `_splitnetloc`: the netloc extends to the first `/`, `?` or `#`. -/
def splitNetloc : List Char → List Char × List Char
  | [] => ([], [])
  | c :: cs =>
    if c == '/' || c == '?' || c == '#' then ([], c :: cs)
    else
      let r := splitNetloc cs
      (c :: r.1, r.2)

/-- The result of CPython `urlparse` (path parameters are not modeled). -/
structure UrlParts where
  scheme : List Char
  netloc : List Char
  path : List Char
  query : List Char
  fragment : List Char
deriving DecidableEq, Repr

/-- CPython's test for a scheme candidate: nonempty, starts with an ASCII
letter, and consists of scheme characters only. -/
def schemeOk : List Char → Bool
  | [] => false
  | c :: cs => c.isAlpha && (c :: cs).all schemeChar

/-- The WHATWG C0-control-or-space class that CPython `urlsplit` lstrips. -/
def c0OrSpace (c : Char) : Bool := decide (c.toNat ≤ 32)

/-- The `_UNSAFE_URL_BYTES_TO_REMOVE` of CPython `urlsplit`. -/
def unsafeUrlByte (c : Char) : Bool := c == '\t' || c == '\r' || c == '\n'

/-- The sanitization CPython `urlsplit` applies to its url argument: strip
leading C0-control-or-space characters, then delete every tab, CR and LF. -/
def cleanUrl (u : List Char) : List Char :=
  (u.dropWhile c0OrSpace).filter (fun c => !unsafeUrlByte c)

/-- The stages of CPython `urlsplit` after scheme extraction, applied to the
part following `scheme:`: `//netloc` up to the first `/?#`, then split off the
`#fragment` and then the `?query`.  Returns (netloc, path, query, fragment). -/
def splitRest (rest : List Char) : List Char × List Char × List Char × List Char :=
  let netlocRest : List Char × List Char :=
    match rest with
    | '/' :: '/' :: r => splitNetloc r
    | _ => ([], rest)
  let fragSp := splitOnFirst '#' netlocRest.2
  let querySp := splitOnFirst '?' fragSp.1
  (netlocRest.1, querySp.1, querySp.2.getD [], fragSp.2.getD [])

/-- CPython `urlsplit` with a default scheme: sanitize, extract `scheme:` when
the prefix before the first `:` is scheme-shaped (lowercasing it), then run the
netloc/fragment/query stages on the remainder. -/
def urlsplitCore (dflt : List Char) (u0 : List Char) : UrlParts :=
  let u := cleanUrl u0
  let schemeRest : List Char × List Char :=
    match (splitOnFirst ':' u).2 with
    | some post =>
      if schemeOk (splitOnFirst ':' u).1 then ((splitOnFirst ':' u).1.map lowerChar, post)
      else (dflt, u)
    | none => (dflt, u)
  let r := splitRest schemeRest.2
  ⟨schemeRest.1, r.1, r.2.1, r.2.2.1, r.2.2.2⟩

/-- `urllib.parse.urlparse` with no default scheme. -/
def urlparse (s : String) : UrlParts := urlsplitCore [] s.data

/-- CPython `uses_relative`. -/
def uses_relative : List (List Char) :=
  ["", "ftp", "http", "gopher", "nntp", "imap", "wais", "file", "https", "shttp",
   "mms", "prospero", "rtsp", "rtspu", "sftp", "svn", "svn+ssh", "ws", "wss"].map
    String.data

/-- CPython `uses_netloc`. -/
def uses_netloc : List (List Char) :=
  ["", "ftp", "http", "gopher", "nntp", "telnet", "imap", "wais", "file", "mms",
   "https", "shttp", "snews", "prospero", "rtsp", "rtspu", "rsync", "svn",
   "svn+ssh", "sftp", "nfs", "git", "git+ssh", "ws", "wss", "itms-services"].map
    String.data

/-- CPython `urlunsplit` (empty params, so `urlunparse` coincides with it). -/
def urlunsplit (p : UrlParts) : List Char :=
  let url := p.path
  let url :=
    if ¬p.netloc.isEmpty ∨
        (¬p.scheme.isEmpty ∧ p.scheme ∈ uses_netloc ∧ url.take 2 ≠ ['/', '/']) then
      let url1 := if ¬url.isEmpty ∧ url.head? ≠ some '/' then '/' :: url else url
      '/' :: '/' :: (p.netloc ++ url1)
    else url
  let url := if ¬p.scheme.isEmpty then p.scheme ++ ':' :: url else url
  let url := if ¬p.query.isEmpty then url ++ '?' :: p.query else url
  if ¬p.fragment.isEmpty then url ++ '#' :: p.fragment else url

/-- Python `str.split('/')` (never returns an empty list of pieces). -/
def splitSlash : List Char → List (List Char)
  | [] => [[]]
  | c :: cs =>
    let r := splitSlash cs
    if c == '/' then [] :: r
    else
      match r with
      | h :: t => (c :: h) :: t
      | [] => [[c]]

/-- Python `'/'.join`. -/
def joinSlash : List (List Char) → List Char
  | [] => []
  | [a] => a
  | a :: b :: t => a ++ '/' :: joinSlash (b :: t)

/-- The step `if base_parts[-1] != '': del base_parts[-1]` of CPython
`urljoin`. -/
def delLastNonempty (l : List (List Char)) : List (List Char) :=
  match l.getLast? with
  | some last => if last.isEmpty then l else l.dropLast
  | none => l

/-- Helper for `segments[1:-1] = filter(None, segments[1:-1])`: drops empty
segments except the final one. -/
def filterInner : List (List Char) → List (List Char)
  | [] => []
  | [a] => [a]
  | a :: b :: t => if a.isEmpty then filterInner (b :: t) else a :: filterInner (b :: t)

/-- `segments[1:-1] = filter(None, segments[1:-1])`: the first and last
segments are kept, empty middle segments are dropped. -/
def filterMiddle : List (List Char) → List (List Char)
  | [] => []
  | f :: rest => f :: filterInner rest

/-- The `..` / `.` resolution loop of CPython `urljoin` (a pop on an empty
list is ignored, matching the `except IndexError: pass`). -/
def resolveDots (segs : List (List Char)) : List (List Char) :=
  let resolved := segs.foldl
    (fun acc seg =>
      if seg = ['.', '.'] then acc.dropLast
      else if seg = ['.'] then acc
      else acc ++ [seg]) []
  match segs.getLast? with
  | some last => if last = ['.'] ∨ last = ['.', '.'] then resolved ++ [[]] else resolved
  | none => resolved

/-- CPython `urljoin` (with `allow_fragments = True`; `;` params not
modeled). -/
def urljoinCore (base url : List Char) : List Char :=
  if base.isEmpty then url
  else if url.isEmpty then base
  else
    let b := urlsplitCore [] base
    let p := urlsplitCore b.scheme url
    if p.scheme ≠ b.scheme ∨ p.scheme ∉ uses_relative then url
    else if p.scheme ∈ uses_netloc ∧ ¬p.netloc.isEmpty then urlunsplit p
    else
      let netloc := if p.scheme ∈ uses_netloc then b.netloc else p.netloc
      if p.path.isEmpty then
        let query := if p.query.isEmpty then b.query else p.query
        urlunsplit ⟨p.scheme, netloc, b.path, query, p.fragment⟩
      else
        let segments :=
          if p.path.head? = some '/' then splitSlash p.path
          else filterMiddle (delLastNonempty (splitSlash b.path) ++ splitSlash p.path)
        let rp := joinSlash (resolveDots segments)
        let rp := if rp.isEmpty then ['/'] else rp
        urlunsplit ⟨p.scheme, netloc, rp, p.query, p.fragment⟩

/-- `urllib.parse.urljoin` on strings. -/
def urljoin (base url : String) : String := ⟨urljoinCore base.data url.data⟩

/-- The string `parsed.scheme + "://" + parsed.netloc + parsed.path` of
line 77. -/
def renderUrl (p : UrlParts) : List Char :=
  p.scheme ++ ':' :: '/' :: '/' :: (p.netloc ++ p.path)

/-- Lines 74–77 of the crawler: resolve an href against the page URL and keep
only `scheme + "://" + netloc + path`. -/
def normalizeUrl (pageUrl href : String) : String :=
  ⟨renderUrl (urlparse (urljoin pageUrl href))⟩

/-- `is_valid` (lines 29–34): the parse has both a netloc and a scheme. -/
def is_valid (url : String) : Bool :=
  let p := urlparse url
  ¬p.netloc.isEmpty ∧ ¬p.scheme.isEmpty

/-- Characters the email regex allows in the local part. -/
def localChar (c : Char) : Bool :=
  c.isAlpha || c.isDigit || c == '.' || c == '_' || c == '%' || c == '+' || c == '-'

/-- Characters the email regex allows in the domain part. -/
def domainChar (c : Char) : Bool :=
  c.isAlpha || c.isDigit || c == '.' || c == '-'

/-- Split at the last occurrence of `d`. -/
def splitOnLast (d : Char) (l : List Char) : List Char × Option (List Char) :=
  match splitOnFirst d l.reverse with
  | (revAfter, some revBefore) => (revBefore.reverse, some revAfter.reverse)
  | (_, none) => (l, none)

/-- An anchored match of the email regex of line 43
(local part, `@`, domain, `.`, a TLD of two or more letters).  Since the local
characters exclude `@` and the TLD letters exclude `.`, the regex matches
exactly when the part before the first `@` is a nonempty run of local
characters and the remainder splits at its last `.` into a nonempty run of
domain characters and a TLD of two or more ASCII letters. -/
def emailCore (l : List Char) : Bool :=
  match splitOnFirst '@' l with
  | (loc, some rest) =>
    !loc.isEmpty && loc.all localChar &&
      (match splitOnLast '.' rest with
       | (dom, some tld) =>
         !dom.isEmpty && dom.all domainChar && decide (2 ≤ tld.length) &&
           tld.all Char.isAlpha
       | (_, none) => false)
  | (_, none) => false

/-- Python `re.match` with a `$`-anchored pattern: `$` also matches just before
a single trailing newline. -/
def emailMatch (l : List Char) : Bool :=
  emailCore l || (l.getLast? == some '\n' && emailCore l.dropLast)

/-- `is_mail_link` (lines 36–45): strip a `mailto:` head and validate the
remainder; `none` models the Python `None` return. -/
def is_mail_link (href : String) : Option String :=
  match href.data with
  | 'm' :: 'a' :: 'i' :: 'l' :: 't' :: 'o' :: ':' :: rest =>
    if emailMatch rest then some ⟨rest⟩ else none
  | _ => none

/-- Python's `in` test on strings: does `needle` occur as a contiguous
substring? -/
def listPrefixOf : List Char → List Char → Bool
  | [], _ => true
  | _ :: _, [] => false
  | a :: as, b :: bs => a == b && listPrefixOf as bs

/-- Python's `needle in hay` on strings. -/
def containsSub (needle : List Char) : List Char → Bool
  | [] => listPrefixOf needle []
  | c :: t => listPrefixOf needle (c :: t) || containsSub needle t

/-- The script's global mutable state plus observation logs: `fetchLog` records
every `requests.get` attempt in order and `failures` every printed fetch-error
diagnostic line. -/
structure CrawlState where
  internal_urls : List String
  external_urls : List String
  email_addresses : List String
  total_urls_visited : Nat
  fetchLog : List String
  failures : List String
deriving DecidableEq, Repr

/-- The state at interpreter start (lines 23–27). -/
def initState : CrawlState := ⟨[], [], [], 0, [], []⟩

/-- The abstract web: fetching a URL yields the list of anchor href values on
the page (an anchor without an href is modeled by `""`, which the crawler
skips), or `none` when the request or the HTML parse raises. -/
def Web : Type := String → Option (List String)

/-- The body of the `for a_tag` loop (lines 61–90), acting on the pair of the
local result set `urls` (kept in insertion order) and the global state. -/
def processHref (pageUrl : String) (domain : List Char)
    (acc : List String × CrawlState) (href : String) : List String × CrawlState :=
  if href = "" then acc
  else
    match is_mail_link href with
    | some email =>
      if email ∈ acc.2.email_addresses then acc
      else (acc.1, { acc.2 with email_addresses := acc.2.email_addresses ++ [email] })
    | none =>
      let h := normalizeUrl pageUrl href
      if is_valid h = false then acc
      else if h ∈ acc.2.internal_urls then acc
      else if containsSub domain h.data = false then
        if h ∈ acc.2.external_urls then acc
        else (acc.1, { acc.2 with external_urls := acc.2.external_urls ++ [h] })
      else
        (acc.1 ++ [h], { acc.2 with internal_urls := acc.2.internal_urls ++ [h] })

/-- `get_all_website_links` (lines 47–91): note the domain used for the
internal/external test is the netloc of the page being fetched. -/
def get_all_website_links (web : Web) (url : String) (s : CrawlState) :
    List String × CrawlState :=
  let domain := (urlparse url).netloc
  let s := { s with fetchLog := s.fetchLog ++ [url] }
  match web url with
  | none => ([], { s with failures := s.failures ++ [url] })
  | some hrefs => hrefs.foldl (processHref url domain) ([], s)

/-- `crawl` (lines 93–104), fuel-indexed so the recursion is structural.
`Sum.inl url` is a call `crawl(url)`: increment the visit counter, fetch, then
run the link loop.  `Sum.inr ls` is the `for link in links` loop with its
budget check before each recursive call; `break` abandons only the remaining
links of the current page. -/
def crawlAux (web : Web) (maxUrls : Int) :
    Nat → Sum String (List String) → CrawlState → Option CrawlState
  | _, .inr [], s => some s
  | 0, _, _ => none
  | fuel + 1, .inl url, s =>
    let s1 := { s with total_urls_visited := s.total_urls_visited + 1 }
    let r := get_all_website_links web url s1
    crawlAux web maxUrls fuel (.inr r.1) r.2
  | fuel + 1, .inr (l :: ls), s =>
    if (s.total_urls_visited : Int) > maxUrls then some s
    else
      match crawlAux web maxUrls fuel (.inl l) s with
      | none => none
      | some s' => crawlAux web maxUrls fuel (.inr ls) s'

/-- A whole crawl session: `crawl(url, max_urls)` started on a fresh state.
The fuel `2 * maxUrls.toNat + 3` always suffices for the recursion to reach
its natural end (proved below), so `none` never actually occurs. -/
def crawlRun (web : Web) (maxUrls : Int) (url : String) : Option CrawlState :=
  crawlAux web maxUrls (2 * maxUrls.toNat + 3) (.inl url) initState

/-- Python `int(...)` as used by argparse `type=int`: an optional sign and at
least one digit (underscores and surrounding whitespace not modeled). -/
def parseInt (s : String) : Option Int :=
  let digits : List Char → Option Int := fun l =>
    if l.isEmpty ∨ ¬l.all Char.isDigit then none
    else some (l.foldl (fun n c => 10 * n + ((c.toNat : Int) - 48)) 0)
  match s.data with
  | '-' :: t => (digits t).map Int.neg
  | '+' :: t => digits t
  | t => digits t

/-- The argparse surface of `__main__` (lines 106–114): one positional URL and
an optional `-m` / `--max-urls` integer defaulting to 30; a missing positional
or a non-integer `-m` value is a usage error (argparse exits with code 2).
The URL argument itself is not validated in any way. -/
def parseArgs : List String → Option (String × Int)
  | [u] => some (u, 30)
  | [a, b, c] =>
    if a = "-m" ∨ a = "--max-urls" then (parseInt b).map (fun n => (c, n))
    else if b = "-m" ∨ b = "--max-urls" then (parseInt c).map (fun n => (a, n))
    else none
  | _ => none

/-- `__main__` (lines 106–138): parse arguments, run the crawl, print the
summary and write the three output files (I/O is not modeled), and fall off
the end of the script, which is exit code 0.  The script calls `sys.exit`
nowhere, so a completed crawl always exits 0; argparse failures exit 2. -/
def mainRun (web : Web) (argv : List String) : Int × CrawlState :=
  match parseArgs argv with
  | none => (2, initState)
  | some (u, m) => (0, (crawlRun web m u).getD initState)

/-- A synthetic site with an infinite chain of internal links: every page
links to one fresh page on the same host. -/
def chainWeb : Web := fun u => some [u ++ "I"]

/-- The seed for the chain site. -/
def chainSeed : String := "http://a.x/p"

/-- A page that links back to itself: the smallest cyclic link graph. -/
def loopWeb : Web := fun _ => some ["http://a.x/p"]

/-- A web on which every fetch fails. -/
def deadWeb : Web := fun _ => none

/-- A site whose seed page `http://a.x/` links to a page on the distinct host
`ba.x`, whose name merely contains the seed host `a.x` as a substring. -/
def confusableWeb : Web := fun _ => some ["http://ba.x/q"]

/-- A seed page carrying one well-formed and one malformed mailto anchor. -/
def mailtoWeb : Web := fun u =>
  if u = "https://example.com" then some ["mailto:a@b.com", "mailto:not-an-email"]
  else some []

/-- A seed page with two anchors that differ only in query string and
fragment. -/
def queryPairWeb : Web := fun u =>
  if u = "https://example.com" then
    some ["https://example.com/page?x=1#section", "/page"]
  else some []

/-- The state change of a `crawl` call whose fetch fails: the visit counter is
incremented, the fetch attempt is logged, one diagnostic line is printed, and
no links are produced. -/
def visitFail (s : CrawlState) (u : String) : CrawlState :=
  { s with total_urls_visited := s.total_urls_visited + 1,
           fetchLog := s.fetchLog ++ [u], failures := s.failures ++ [u] }

/-- No character of `l` lies in `bad`. -/
def avoids (bad l : List Char) : Prop := ∀ c ∈ l, c ∉ bad

/-- All characters survive the tab/CR/LF removal of `urlsplit`. -/
def safeChars (l : List Char) : Prop := ∀ c ∈ l, unsafeUrlByte c = false

/-- A scheme as produced by extraction: scheme-shaped and already
lowercased. -/
def lowSchemeOk (s : List Char) : Prop := schemeOk s = true ∧ s.map lowerChar = s

/-- The CrawlTarget well-formedness of the specification: a URL string that
passes `is_valid` (absolute: nonempty scheme and netloc) and carries no query
string or fragment. -/
def urlOk (u : String) : Prop := is_valid u = true ∧ '?' ∉ u.data ∧ '#' ∉ u.data

/-- Every URL stored in the internal-links set or the external-links set is a
well-formed normalized target. -/
def stateUrlsOk (s : CrawlState) : Prop :=
  (∀ u ∈ s.internal_urls, urlOk u) ∧ ∀ u ∈ s.external_urls, urlOk u

/-- The fetch-count invariant of a crawl run rooted at `seed`: a URL has been
fetched at most once if it is in the internal set, plus once more if it is the
seed itself. -/
def fetchBound (seed : String) (s : CrawlState) : Prop :=
  ∀ v, s.fetchLog.count v ≤
    (if v ∈ s.internal_urls then 1 else 0) + (if v = seed then 1 else 0)

/-- The fetch allowance of a URL: once for being in the internal set, once
more for being the seed. -/
def gBound (seed v : String) (s : CrawlState) : Nat :=
  (if v ∈ s.internal_urls then 1 else 0) + (if v = seed then 1 else 0)

/-- The visit-counter increment a pending work item will perform. -/
def pendingVisits : Sum String (List String) → Nat
  | .inl _ => 1
  | .inr _ => 0

/-- Fuel that always suffices for a work item, measured against how far the
visit counter still is from exceeding the budget. -/
def fuelNeed (maxUrls : Int) : Sum String (List String) → CrawlState → Nat
  | .inl _, s => 2 * ((maxUrls.toNat + 1 - s.total_urls_visited) +
      (1 - (maxUrls.toNat + 1 - s.total_urls_visited)))
  | .inr [], _ => 0
  | .inr (_ :: _), s => 2 * (maxUrls.toNat + 1 - s.total_urls_visited) + 1

theorem isAlpha_not_c0 {c : Char} (h : c.isAlpha = true) : ¬c.toNat ≤ 32 := by
  simp only [Char.isAlpha, Char.isUpper, Char.isLower, Bool.or_eq_true, Bool.and_eq_true,
    decide_eq_true_eq] at h
  rcases h with ⟨h1, h2⟩ | ⟨h1, h2⟩ <;>
    · have n1 : (65 : Nat) ≤ c.val.toNat ∨ (97 : Nat) ≤ c.val.toNat := by
        first
          | exact Or.inl h1
          | exact Or.inr h1
      have hc : c.toNat = c.val.toNat := rfl
      omega

theorem isDigit_not_c0 {c : Char} (h : c.isDigit = true) : ¬c.toNat ≤ 32 := by
  simp only [Char.isDigit, Bool.and_eq_true, decide_eq_true_eq] at h
  have n1 : (48 : Nat) ≤ c.val.toNat := h.1
  have hc : c.toNat = c.val.toNat := rfl
  omega

theorem schemeChar_cases {c : Char} (h : schemeChar c = true) :
    c.isAlpha = true ∨ c.isDigit = true ∨ c = '+' ∨ c = '-' ∨ c = '.' := by
  simp only [schemeChar, Bool.or_eq_true, beq_iff_eq] at h
  tauto

theorem schemeChar_ne {c : Char} (h : schemeChar c = true) :
    c ≠ ':' ∧ c ≠ '/' ∧ c ≠ '?' ∧ c ≠ '#' := by
  refine ⟨?_, ?_, ?_, ?_⟩ <;> · rintro rfl; exact absurd h (by decide)

theorem schemeChar_not_c0 {c : Char} (h : schemeChar c = true) : c0OrSpace c = false := by
  simp only [c0OrSpace, decide_eq_false_iff_not]
  rcases schemeChar_cases h with h' | h' | rfl | rfl | rfl
  · exact isAlpha_not_c0 h'
  · exact isDigit_not_c0 h'
  all_goals decide

theorem schemeChar_not_unsafe {c : Char} (h : schemeChar c = true) :
    unsafeUrlByte c = false := by
  have ht : c ≠ '\t' := by rintro rfl; exact absurd h (by decide)
  have hr : c ≠ '\r' := by rintro rfl; exact absurd h (by decide)
  have hn : c ≠ '\n' := by rintro rfl; exact absurd h (by decide)
  simp [unsafeUrlByte, ht, hr, hn]

theorem lowerChar_cases (c : Char) :
    lowerChar c = c ∨ lowerChar c ∈ "abcdefghijklmnopqrstuvwxyz".data := by
  unfold lowerChar
  split <;> first | exact Or.inl rfl | exact Or.inr (by decide)

theorem lowerChar_of_mem_lower {c : Char}
    (h : c ∈ "abcdefghijklmnopqrstuvwxyz".data) : lowerChar c = c := by
  fin_cases h <;> decide

theorem lowerChar_idem (c : Char) : lowerChar (lowerChar c) = lowerChar c := by
  rcases lowerChar_cases c with h | h
  · rw [h, h]
  · rw [lowerChar_of_mem_lower h]

theorem lowerChar_schemeChar {c : Char} (h : schemeChar c = true) :
    schemeChar (lowerChar c) = true := by
  unfold lowerChar
  split <;> first | decide | exact h

theorem lowerChar_isAlpha {c : Char} (h : c.isAlpha = true) :
    (lowerChar c).isAlpha = true := by
  unfold lowerChar
  split <;> first | decide | exact h

theorem map_lowerChar_idem (l : List Char) :
    (l.map lowerChar).map lowerChar = l.map lowerChar := by
  induction l with
  | nil => rfl
  | cons c cs ih => simp [lowerChar_idem, ih]

theorem schemeOk_cons (c : Char) (cs : List Char) :
    schemeOk (c :: cs) = (c.isAlpha && (c :: cs).all schemeChar) := rfl

theorem schemeOk_map_lower {l : List Char} (h : schemeOk l = true) :
    schemeOk (l.map lowerChar) = true := by
  cases l with
  | nil => exact absurd h (by decide)
  | cons c cs =>
    rw [schemeOk_cons] at h
    rw [List.map_cons, schemeOk_cons]
    simp only [Bool.and_eq_true, List.all_eq_true] at h ⊢
    refine ⟨lowerChar_isAlpha h.1, ?_⟩
    intro x hx
    simp only [List.mem_cons, List.mem_map] at hx
    rcases hx with rfl | ⟨y, hy, rfl⟩
    · exact lowerChar_schemeChar (h.2 c (by simp))
    · exact lowerChar_schemeChar (h.2 y (by simp [hy]))

theorem lowSchemeOk_of_schemeOk {l : List Char} (h : schemeOk l = true) :
    lowSchemeOk (l.map lowerChar) :=
  ⟨schemeOk_map_lower h, map_lowerChar_idem l⟩

theorem lowSchemeOk_props {l : List Char} (h : lowSchemeOk l) :
    l ≠ [] ∧ ∀ c ∈ l, schemeChar c = true := by
  obtain ⟨h1, _⟩ := h
  cases l with
  | nil => exact absurd h1 (by decide)
  | cons c cs =>
    simp only [schemeOk, Bool.and_eq_true, List.all_eq_true] at h1
    exact ⟨by simp, h1.2⟩

theorem splitOnFirst_cons (d c : Char) (cs : List Char) :
    splitOnFirst d (c :: cs) =
      if c == d then ([], some cs)
      else (c :: (splitOnFirst d cs).1, (splitOnFirst d cs).2) := rfl

theorem splitNetloc_cons (c : Char) (cs : List Char) :
    splitNetloc (c :: cs) =
      if c == '/' || c == '?' || c == '#' then ([], c :: cs)
      else (c :: (splitNetloc cs).1, (splitNetloc cs).2) := rfl

theorem splitOnFirst_not_mem (d : Char) (l : List Char) : d ∉ (splitOnFirst d l).1 := by
  induction l with
  | nil => simp [splitOnFirst]
  | cons c cs ih =>
    rw [splitOnFirst_cons]
    split
    · simp
    · rename_i hc
      simp only [List.mem_cons, not_or]
      exact ⟨fun h => hc (by simp [h]), ih⟩

theorem splitOnFirst_none {d : Char} {l : List Char}
    (h : (splitOnFirst d l).2 = none) : (splitOnFirst d l).1 = l := by
  induction l with
  | nil => rfl
  | cons c cs ih =>
    rw [splitOnFirst_cons] at h ⊢
    split at h
    · exact Option.noConfusion h
    · rename_i hc
      rw [if_neg hc]
      simpa using ih h

theorem splitOnFirst_some {d : Char} {l post : List Char}
    (h : (splitOnFirst d l).2 = some post) : l = (splitOnFirst d l).1 ++ d :: post := by
  induction l generalizing post with
  | nil => exact Option.noConfusion h
  | cons c cs ih =>
    rw [splitOnFirst_cons] at h ⊢
    split at h <;> rename_i hc
    · rw [if_pos hc]
      obtain rfl := Option.some.inj h
      simp only [beq_iff_eq] at hc
      simp [hc]
    · rw [if_neg hc]
      simpa using ih h

theorem splitOnFirst_of_not_mem {d : Char} {l : List Char} (h : d ∉ l) :
    splitOnFirst d l = (l, none) := by
  induction l with
  | nil => rfl
  | cons c cs ih =>
    simp only [List.mem_cons, not_or] at h
    rw [splitOnFirst_cons, if_neg (by simp only [beq_iff_eq]; exact fun hc => h.1 hc.symm),
      ih h.2]

theorem splitOnFirst_append {d : Char} {a : List Char} (h : d ∉ a) (b : List Char) :
    splitOnFirst d (a ++ d :: b) = (a, some b) := by
  induction a with
  | nil => simp [splitOnFirst]
  | cons c cs ih =>
    simp only [List.mem_cons, not_or] at h
    rw [List.cons_append, splitOnFirst_cons,
      if_neg (by simp only [beq_iff_eq]; exact fun hc => h.1 hc.symm), ih h.2]

theorem splitNetloc_recon (l : List Char) : (splitNetloc l).1 ++ (splitNetloc l).2 = l := by
  induction l with
  | nil => rfl
  | cons c cs ih =>
    rw [splitNetloc_cons]
    split
    · rfl
    · simpa using ih

theorem splitNetloc_fst_free (l : List Char) :
    ∀ c ∈ (splitNetloc l).1, c ≠ '/' ∧ c ≠ '?' ∧ c ≠ '#' := by
  induction l with
  | nil => simp [splitNetloc]
  | cons c cs ih =>
    rw [splitNetloc_cons]
    split
    · simp
    · rename_i hc
      simp only [Bool.or_eq_true, beq_iff_eq] at hc
      push_neg at hc
      intro x hx
      simp only [List.mem_cons] at hx
      rcases hx with rfl | hx
      · exact ⟨hc.1.1, hc.1.2, hc.2⟩
      · exact ih x hx

theorem splitNetloc_append {a : List Char}
    (h : ∀ c ∈ a, c ≠ '/' ∧ c ≠ '?' ∧ c ≠ '#') (b : List Char) :
    splitNetloc (a ++ b) = (a ++ (splitNetloc b).1, (splitNetloc b).2) := by
  induction a with
  | nil => simp
  | cons c cs ih =>
    have hc := h c (by simp)
    rw [List.cons_append, splitNetloc_cons, if_neg (by simp; tauto),
      ih (fun x hx => h x (by simp [hx]))]
    simp

theorem splitNetloc_stopped {b : List Char}
    (h : b = [] ∨ ∃ c t, b = c :: t ∧ (c = '/' ∨ c = '?' ∨ c = '#')) :
    splitNetloc b = ([], b) := by
  rcases h with rfl | ⟨c, t, rfl, hc⟩
  · rfl
  · rw [splitNetloc_cons, if_pos (by simp; tauto)]

theorem mem_cleanUrl {c : Char} {l : List Char} (h : c ∈ cleanUrl l) :
    c ∈ l ∧ unsafeUrlByte c = false := by
  unfold cleanUrl at h
  have h2 := List.mem_filter.mp h
  refine ⟨(List.dropWhile_sublist c0OrSpace).subset h2.1, ?_⟩
  simpa [Bool.not_eq_true'] using h2.2

theorem cleanUrl_eq_self {l : List Char}
    (h1 : ∀ c ∈ l, unsafeUrlByte c = false)
    (h2 : ∀ c, l.head? = some c → c0OrSpace c = false) : cleanUrl l = l := by
  unfold cleanUrl
  have hd : l.dropWhile c0OrSpace = l := by
    cases l with
    | nil => rfl
    | cons c cs =>
      rw [List.dropWhile_cons, if_neg]
      simp [h2 c rfl]
  rw [hd, List.filter_eq_self.mpr]
  intro a ha
  simp [h1 a ha]

theorem splitOnFirst_fst_subset (d : Char) (l : List Char) :
    ∀ c ∈ (splitOnFirst d l).1, c ∈ l := by
  intro c hc
  cases hsp : (splitOnFirst d l).2 with
  | none => rw [splitOnFirst_none hsp] at hc; exact hc
  | some post => rw [splitOnFirst_some hsp]; simp [hc]

theorem splitOnFirst_snd_subset {d : Char} {l post : List Char}
    (hsp : (splitOnFirst d l).2 = some post) : ∀ c ∈ post, c ∈ l := by
  intro c hc
  rw [splitOnFirst_some hsp]
  simp [hc]

theorem splitNetloc_fst_subset (l : List Char) : ∀ c ∈ (splitNetloc l).1, c ∈ l := by
  intro c hc
  rw [← splitNetloc_recon l]
  simp [hc]

theorem splitNetloc_snd_subset (l : List Char) : ∀ c ∈ (splitNetloc l).2, c ∈ l := by
  intro c hc
  rw [← splitNetloc_recon l]
  simp [hc]

theorem splitRest_netloc_free (rest : List Char) :
    ∀ c ∈ (splitRest rest).1, c ≠ '/' ∧ c ≠ '?' ∧ c ≠ '#' := by
  unfold splitRest
  dsimp only
  split
  · exact splitNetloc_fst_free _
  · simp

theorem splitRest_path_free (rest : List Char) :
    '?' ∉ (splitRest rest).2.1 ∧ '#' ∉ (splitRest rest).2.1 := by
  unfold splitRest
  dsimp only
  refine ⟨splitOnFirst_not_mem '?' _, fun h => ?_⟩
  exact splitOnFirst_not_mem '#' _ (splitOnFirst_fst_subset '?' _ _ h)

theorem splitRest_query_free (rest : List Char) : '#' ∉ (splitRest rest).2.2.1 := by
  unfold splitRest
  dsimp only
  intro h
  cases hsp : (splitOnFirst '?' (splitOnFirst '#' (match rest with
    | '/' :: '/' :: r => splitNetloc r
    | _ => ([], rest)).2).1).2 with
  | none => rw [hsp] at h; simp at h
  | some post =>
    rw [hsp] at h
    simp only [Option.getD_some] at h
    exact splitOnFirst_not_mem '#' _
      (splitOnFirst_snd_subset hsp '#' h)

theorem splitRest_subset (rest : List Char) :
    ∀ c, (c ∈ (splitRest rest).1 ∨ c ∈ (splitRest rest).2.1 ∨
      c ∈ (splitRest rest).2.2.1 ∨ c ∈ (splitRest rest).2.2.2) → c ∈ rest := by
  unfold splitRest
  dsimp only
  intro c hc
  have hsub2 : ∀ x ∈ (match rest with
      | '/' :: '/' :: r => splitNetloc r
      | _ => ([], rest)).2, x ∈ rest := by
    split
    · rename_i r
      intro x hx
      have := splitNetloc_snd_subset r x hx
      simp [this]
    · intro x hx
      exact hx
  have hsub1 : ∀ x ∈ (match rest with
      | '/' :: '/' :: r => splitNetloc r
      | _ => ([], rest)).1, x ∈ rest := by
    split
    · rename_i r
      intro x hx
      have := splitNetloc_fst_subset r x hx
      simp [this]
    · simp
  rcases hc with hc | hc | hc | hc
  · exact hsub1 c hc
  · exact hsub2 c (splitOnFirst_fst_subset '#' _ c (splitOnFirst_fst_subset '?' _ c hc))
  · cases hsp : (splitOnFirst '?' (splitOnFirst '#' (match rest with
      | '/' :: '/' :: r => splitNetloc r
      | _ => ([], rest)).2).1).2 with
    | none => rw [hsp] at hc; simp at hc
    | some post =>
      rw [hsp] at hc
      simp only [Option.getD_some] at hc
      exact hsub2 c (splitOnFirst_fst_subset '#' _ c (splitOnFirst_snd_subset hsp c hc))
  · cases hsp : (splitOnFirst '#' (match rest with
      | '/' :: '/' :: r => splitNetloc r
      | _ => ([], rest)).2).2 with
    | none => rw [hsp] at hc; simp at hc
    | some post =>
      rw [hsp] at hc
      simp only [Option.getD_some] at hc
      exact hsub2 c (splitOnFirst_snd_subset hsp c hc)

theorem splitRest_slashes (l : List Char) :
    splitRest ('/' :: '/' :: l) =
      ((splitNetloc l).1,
       (splitOnFirst '?' (splitOnFirst '#' (splitNetloc l).2).1).1,
       (splitOnFirst '?' (splitOnFirst '#' (splitNetloc l).2).1).2.getD [],
       (splitOnFirst '#' (splitNetloc l).2).2.getD []) := rfl

theorem splitRest_render {nl pa : List Char}
    (hnl : ∀ c ∈ nl, c ≠ '/' ∧ c ≠ '?' ∧ c ≠ '#')
    (hpaq : '?' ∉ pa) (hpaf : '#' ∉ pa) :
    splitRest ('/' :: '/' :: (nl ++ pa)) =
      (nl ++ (splitNetloc pa).1, (splitNetloc pa).2, [], []) := by
  have h2f : '#' ∉ (splitNetloc pa).2 := fun h => hpaf (splitNetloc_snd_subset pa _ h)
  have h2q : '?' ∉ (splitNetloc pa).2 := fun h => hpaq (splitNetloc_snd_subset pa _ h)
  rw [splitRest_slashes, splitNetloc_append hnl]
  dsimp only
  rw [splitOnFirst_of_not_mem h2f]
  dsimp only
  rw [splitOnFirst_of_not_mem h2q]
  rfl

theorem cleanUrl_scheme_rest {s rest : List Char} (hs : lowSchemeOk s)
    (hrest : ∀ c ∈ rest, unsafeUrlByte c = false) :
    cleanUrl (s ++ ':' :: rest) = s ++ ':' :: rest := by
  obtain ⟨hne, hall⟩ := lowSchemeOk_props hs
  apply cleanUrl_eq_self
  · intro c hc
    simp only [List.mem_append, List.mem_cons] at hc
    rcases hc with hc | rfl | hc
    · exact schemeChar_not_unsafe (hall c hc)
    · decide
    · exact hrest c hc
  · intro c hc
    cases s with
    | nil => exact absurd rfl hne
    | cons a as =>
      simp only [List.cons_append, List.head?_cons, Option.some.injEq] at hc
      subst hc
      exact schemeChar_not_c0 (hall a (by simp))

theorem urlsplitCore_extract (dflt : List Char) {s rest : List Char} (hs : lowSchemeOk s)
    (hclean : cleanUrl (s ++ ':' :: rest) = s ++ ':' :: rest) :
    urlsplitCore dflt (s ++ ':' :: rest) =
      ⟨s, (splitRest rest).1, (splitRest rest).2.1, (splitRest rest).2.2.1,
        (splitRest rest).2.2.2⟩ := by
  have hcolon : ':' ∉ s := fun h =>
    (schemeChar_ne ((lowSchemeOk_props hs).2 ':' h)).1 rfl
  show (let u := cleanUrl (s ++ ':' :: rest);
    let schemeRest : List Char × List Char :=
      match (splitOnFirst ':' u).2 with
      | some post =>
        if schemeOk (splitOnFirst ':' u).1 then ((splitOnFirst ':' u).1.map lowerChar, post)
        else (dflt, u)
      | none => (dflt, u)
    let r := splitRest schemeRest.2
    (⟨schemeRest.1, r.1, r.2.1, r.2.2.1, r.2.2.2⟩ : UrlParts)) = _
  simp only [hclean, splitOnFirst_append hcolon]
  rw [if_pos hs.1, hs.2]

theorem urlsplitCore_shape (dflt u0 : List Char) :
    ∃ rest, (∀ c ∈ rest, c ∈ cleanUrl u0) ∧
      ((urlsplitCore dflt u0).scheme = dflt ∨ lowSchemeOk (urlsplitCore dflt u0).scheme) ∧
      urlsplitCore dflt u0 = ⟨(urlsplitCore dflt u0).scheme, (splitRest rest).1,
        (splitRest rest).2.1, (splitRest rest).2.2.1, (splitRest rest).2.2.2⟩ := by
  unfold urlsplitCore
  cases hsp : (splitOnFirst ':' (cleanUrl u0)).2 with
  | none =>
    refine ⟨cleanUrl u0, fun c hc => hc, ?_, ?_⟩ <;> simp [hsp]
  | some post =>
    by_cases hok : schemeOk (splitOnFirst ':' (cleanUrl u0)).1
    · refine ⟨post, fun c hc => splitOnFirst_snd_subset hsp c hc, ?_, ?_⟩
      · right
        simp only [hsp, hok, if_true]
        exact lowSchemeOk_of_schemeOk hok
      · simp [hsp, hok]
    · refine ⟨cleanUrl u0, fun c hc => hc, ?_, ?_⟩ <;> simp [hsp, hok]

theorem urlsplitCore_netloc_free (dflt u0 : List Char) :
    ∀ c ∈ (urlsplitCore dflt u0).netloc, c ≠ '/' ∧ c ≠ '?' ∧ c ≠ '#' := by
  obtain ⟨rest, -, -, heq⟩ := urlsplitCore_shape dflt u0
  intro c hc
  rw [heq] at hc
  exact splitRest_netloc_free rest c hc

theorem urlsplitCore_path_free (dflt u0 : List Char) :
    '?' ∉ (urlsplitCore dflt u0).path ∧ '#' ∉ (urlsplitCore dflt u0).path := by
  obtain ⟨rest, -, -, heq⟩ := urlsplitCore_shape dflt u0
  rw [heq]
  exact splitRest_path_free rest

theorem urlsplitCore_query_free (dflt u0 : List Char) :
    '#' ∉ (urlsplitCore dflt u0).query := by
  obtain ⟨rest, -, -, heq⟩ := urlsplitCore_shape dflt u0
  rw [heq]
  exact splitRest_query_free rest

theorem urlsplitCore_scheme_cases (dflt u0 : List Char) :
    (urlsplitCore dflt u0).scheme = dflt ∨ lowSchemeOk (urlsplitCore dflt u0).scheme :=
  (urlsplitCore_shape dflt u0).choose_spec.2.1

theorem urlsplitCore_parts_safe (dflt u0 : List Char) :
    (∀ c ∈ (urlsplitCore dflt u0).netloc, unsafeUrlByte c = false) ∧
      (∀ c ∈ (urlsplitCore dflt u0).path, unsafeUrlByte c = false) ∧
      (∀ c ∈ (urlsplitCore dflt u0).query, unsafeUrlByte c = false) ∧
      ∀ c ∈ (urlsplitCore dflt u0).fragment, unsafeUrlByte c = false := by
  obtain ⟨rest, hsub, -, heq⟩ := urlsplitCore_shape dflt u0
  refine ⟨fun c hc => ?_, fun c hc => ?_, fun c hc => ?_, fun c hc => ?_⟩ <;>
    · rw [heq] at hc
      refine (mem_cleanUrl (hsub c (splitRest_subset rest c ?_))).2
      tauto

theorem urlsplitCore_dflt_eq (dflt u0 : List Char) :
    ((urlsplitCore dflt u0).scheme = (urlsplitCore [] u0).scheme ∨
      ((urlsplitCore [] u0).scheme = [] ∧ (urlsplitCore dflt u0).scheme = dflt)) ∧
    (urlsplitCore dflt u0).netloc = (urlsplitCore [] u0).netloc ∧
    (urlsplitCore dflt u0).path = (urlsplitCore [] u0).path ∧
    (urlsplitCore dflt u0).query = (urlsplitCore [] u0).query ∧
    (urlsplitCore dflt u0).fragment = (urlsplitCore [] u0).fragment := by
  unfold urlsplitCore
  cases hsp : (splitOnFirst ':' (cleanUrl u0)).2 with
  | none => simp [hsp]
  | some post =>
    by_cases hok : schemeOk (splitOnFirst ':' (cleanUrl u0)).1 <;> simp [hsp, hok]

theorem renderUrl_eq (s nl pa q f : List Char) :
    renderUrl ⟨s, nl, pa, q, f⟩ = s ++ ':' :: '/' :: '/' :: (nl ++ pa) := rfl

theorem urlsplitCore_render (dflt : List Char) {s nl pa : List Char} (hs : lowSchemeOk s)
    (hnl : ∀ c ∈ nl, c ≠ '/' ∧ c ≠ '?' ∧ c ≠ '#')
    (hpaq : '?' ∉ pa) (hpaf : '#' ∉ pa)
    (hsafe : ∀ c ∈ nl ++ pa, unsafeUrlByte c = false) :
    urlsplitCore dflt (s ++ ':' :: '/' :: '/' :: (nl ++ pa)) =
      ⟨s, nl ++ (splitNetloc pa).1, (splitNetloc pa).2, [], []⟩ := by
  have hclean : cleanUrl (s ++ ':' :: '/' :: '/' :: (nl ++ pa)) =
      s ++ ':' :: '/' :: '/' :: (nl ++ pa) := by
    refine cleanUrl_scheme_rest hs ?_
    intro c hc
    simp only [List.mem_cons] at hc
    rcases hc with rfl | rfl | hc
    · decide
    · decide
    · exact hsafe c hc
  rw [urlsplitCore_extract dflt hs hclean, splitRest_render hnl hpaq hpaf]

theorem renderUrl_reparse (dflt : List Char) {s nl pa : List Char} (hs : lowSchemeOk s)
    (hnl : ∀ c ∈ nl, c ≠ '/' ∧ c ≠ '?' ∧ c ≠ '#')
    (hpaq : '?' ∉ pa) (hpaf : '#' ∉ pa)
    (hsafe : ∀ c ∈ nl ++ pa, unsafeUrlByte c = false) :
    renderUrl (urlsplitCore dflt (s ++ ':' :: '/' :: '/' :: (nl ++ pa))) =
      s ++ ':' :: '/' :: '/' :: (nl ++ pa) := by
  rw [urlsplitCore_render dflt hs hnl hpaq hpaf hsafe, renderUrl_eq,
    List.append_assoc, splitNetloc_recon]

theorem splitRest_full {nl pa q f : List Char}
    (hnl : ∀ c ∈ nl, c ≠ '/' ∧ c ≠ '?' ∧ c ≠ '#')
    (hpa0 : pa = [] ∨ pa.head? = some '/')
    (hpaq : '?' ∉ pa) (hpaf : '#' ∉ pa) (hqf : '#' ∉ q) :
    splitRest ('/' :: '/' :: (nl ++ (pa ++ ((if ¬q.isEmpty then '?' :: q else []) ++
      (if ¬f.isEmpty then '#' :: f else []))))) = (nl, pa, q, f) := by
  have hx : ∀ b : List Char, (b = [] ∨ ∃ c t, b = c :: t ∧ (c = '/' ∨ c = '?' ∨ c = '#')) →
      splitNetloc (pa ++ b) = ([], pa ++ b) := by
    intro b hb
    rcases hpa0 with rfl | hpa0
    · simpa using splitNetloc_stopped hb
    · cases pa with
      | nil => simpa using splitNetloc_stopped hb
      | cons c t =>
        simp only [List.head?_cons, Option.some.injEq] at hpa0
        subst hpa0
        exact splitNetloc_stopped (Or.inr ⟨'/', t ++ b, by simp, Or.inl rfl⟩)
  have hpa' : splitNetloc pa = ([], pa) := by simpa using hx [] (Or.inl rfl)
  rw [splitRest_slashes]
  cases q with
  | nil =>
    cases f with
    | nil =>
      rw [if_neg (by simp), if_neg (by simp), List.append_nil, List.append_nil,
        splitNetloc_append hnl, hpa']
      dsimp only
      rw [splitOnFirst_of_not_mem hpaf]
      dsimp only
      rw [splitOnFirst_of_not_mem hpaq]
      simp
    | cons f0 ft =>
      rw [if_neg (by simp), if_pos (by simp), List.nil_append,
        splitNetloc_append hnl, hx ('#' :: f0 :: ft) (Or.inr ⟨'#', f0 :: ft, rfl, by tauto⟩)]
      dsimp only
      rw [splitOnFirst_append (by simpa using hpaf) (f0 :: ft)]
      dsimp only
      rw [splitOnFirst_of_not_mem hpaq]
      simp
  | cons q0 qt =>
    have hnof : '#' ∉ pa ++ '?' :: q0 :: qt := by
      simp only [List.mem_append, List.mem_cons]
      rintro (h | h | h)
      · exact hpaf h
      · exact absurd h (by decide)
      · exact hqf (by simpa using h)
    cases f with
    | nil =>
      rw [if_pos (by simp), if_neg (by simp), List.append_nil,
        splitNetloc_append hnl, hx ('?' :: q0 :: qt) (Or.inr ⟨'?', q0 :: qt, rfl, by tauto⟩)]
      dsimp only
      rw [splitOnFirst_of_not_mem hnof]
      dsimp only
      rw [splitOnFirst_append hpaq (q0 :: qt)]
      simp
    | cons f0 ft =>
      rw [if_pos (by simp), if_pos (by simp),
        splitNetloc_append hnl, hx ('?' :: q0 :: qt ++ '#' :: f0 :: ft)
          (Or.inr ⟨'?', q0 :: qt ++ '#' :: f0 :: ft, by simp, by tauto⟩)]
      dsimp only
      rw [show pa ++ ('?' :: q0 :: qt ++ '#' :: f0 :: ft) =
        (pa ++ '?' :: q0 :: qt) ++ '#' :: f0 :: ft by simp]
      rw [splitOnFirst_append hnof (f0 :: ft)]
      dsimp only
      rw [splitOnFirst_append hpaq (q0 :: qt)]
      simp

theorem splitNetloc_snd_stop (l : List Char) :
    (splitNetloc l).2 = [] ∨
      ∃ c t, (splitNetloc l).2 = c :: t ∧ (c = '/' ∨ c = '?' ∨ c = '#') := by
  induction l with
  | nil => exact Or.inl rfl
  | cons c cs ih =>
    rw [splitNetloc_cons]
    split
    · rename_i hc
      simp only [Bool.or_eq_true, beq_iff_eq] at hc
      exact Or.inr ⟨c, cs, rfl, by tauto⟩
    · simpa using ih

theorem urlunsplit_netloc {s nl : List Char} (pa q f : List Char)
    (hs : s ≠ []) (hnl : nl ≠ []) :
    urlunsplit ⟨s, nl, pa, q, f⟩ =
      s ++ ':' :: '/' :: '/' :: (nl ++
        ((if ¬pa.isEmpty ∧ pa.head? ≠ some '/' then '/' :: pa else pa) ++
          ((if ¬q.isEmpty then '?' :: q else []) ++
            (if ¬f.isEmpty then '#' :: f else [])))) := by
  unfold urlunsplit
  dsimp only
  have h1 : ¬(nl.isEmpty = true) := by simpa using hnl
  have h2 : ¬(s.isEmpty = true) := by simpa using hs
  by_cases hq : q.isEmpty = true <;> by_cases hf : f.isEmpty = true <;>
    simp [h1, h2, hq, hf, List.append_assoc]

theorem urlsplitCore_unsplit (dflt : List Char) {s nl pa q f : List Char}
    (hs : lowSchemeOk s) (hnl : nl ≠ [])
    (hnlf : ∀ c ∈ nl, c ≠ '/' ∧ c ≠ '?' ∧ c ≠ '#')
    (hpaq : '?' ∉ pa) (hpaf : '#' ∉ pa) (hqf : '#' ∉ q)
    (hsafe : (∀ c ∈ nl, unsafeUrlByte c = false) ∧ (∀ c ∈ pa, unsafeUrlByte c = false) ∧
      (∀ c ∈ q, unsafeUrlByte c = false) ∧ ∀ c ∈ f, unsafeUrlByte c = false) :
    urlsplitCore dflt (urlunsplit ⟨s, nl, pa, q, f⟩) =
      ⟨s, nl, if ¬pa.isEmpty ∧ pa.head? ≠ some '/' then '/' :: pa else pa, q, f⟩ := by
  have hsne : s ≠ [] := (lowSchemeOk_props hs).1
  rw [urlunsplit_netloc pa q f hsne hnl]
  have hpa'q : '?' ∉ (if ¬pa.isEmpty ∧ pa.head? ≠ some '/' then '/' :: pa else pa) := by
    split
    · simp only [List.mem_cons]
      rintro (h | h)
      · exact absurd h (by decide)
      · exact hpaq h
    · exact hpaq
  have hpa'f : '#' ∉ (if ¬pa.isEmpty ∧ pa.head? ≠ some '/' then '/' :: pa else pa) := by
    split
    · simp only [List.mem_cons]
      rintro (h | h)
      · exact absurd h (by decide)
      · exact hpaf h
    · exact hpaf
  have hpa'safe : ∀ c ∈ (if ¬pa.isEmpty ∧ pa.head? ≠ some '/' then '/' :: pa else pa),
      unsafeUrlByte c = false := by
    split
    · intro c hc
      simp only [List.mem_cons] at hc
      rcases hc with rfl | hc
      · decide
      · exact hsafe.2.1 c hc
    · exact hsafe.2.1
  have hpa'0 : (if ¬pa.isEmpty ∧ pa.head? ≠ some '/' then '/' :: pa else pa) = [] ∨
      (if ¬pa.isEmpty ∧ pa.head? ≠ some '/' then '/' :: pa else pa).head? = some '/' := by
    split
    · right; rfl
    · rename_i hcond
      rw [not_and_or, not_not, not_not] at hcond
      rcases hcond with hcond | hcond
      · left
        exact List.isEmpty_iff.mp hcond
      · right
        exact hcond
  have hclean : cleanUrl (s ++ ':' :: '/' :: '/' :: (nl ++
      ((if ¬pa.isEmpty ∧ pa.head? ≠ some '/' then '/' :: pa else pa) ++
        ((if ¬q.isEmpty then '?' :: q else []) ++
          (if ¬f.isEmpty then '#' :: f else []))))) = s ++ ':' :: '/' :: '/' :: (nl ++
      ((if ¬pa.isEmpty ∧ pa.head? ≠ some '/' then '/' :: pa else pa) ++
        ((if ¬q.isEmpty then '?' :: q else []) ++
          (if ¬f.isEmpty then '#' :: f else [])))) := by
    refine cleanUrl_scheme_rest hs ?_
    intro c hc
    simp only [List.mem_cons, List.mem_append] at hc
    rcases hc with rfl | rfl | hc | hc | hc | hc
    · decide
    · decide
    · exact hsafe.1 c hc
    · exact hpa'safe c hc
    · revert hc
      split
      · simp only [List.mem_cons]
        rintro (rfl | hc)
        · decide
        · exact hsafe.2.2.1 c hc
      · simp
    · revert hc
      split
      · simp only [List.mem_cons]
        rintro (rfl | hc)
        · decide
        · exact hsafe.2.2.2 c hc
      · simp
  rw [urlsplitCore_extract dflt hs hclean, splitRest_full hnlf hpa'0 hpa'q hpa'f hqf]

theorem splitSlash_cons (c : Char) (cs : List Char) :
    splitSlash (c :: cs) =
      if c == '/' then [] :: splitSlash cs
      else match splitSlash cs with
        | h :: t => (c :: h) :: t
        | [] => [[c]] := rfl

theorem splitSlash_mem (l : List Char) : ∀ x ∈ splitSlash l, ∀ c ∈ x, c ∈ l := by
  induction l with
  | nil =>
    intro x hx c hc
    simp only [splitSlash, List.mem_singleton] at hx
    subst hx
    simp at hc
  | cons c0 cs ih =>
    intro x hx c hc
    rw [splitSlash_cons] at hx
    split at hx
    · simp only [List.mem_cons] at hx
      rcases hx with rfl | hx
      · simp at hc
      · simp [ih x hx c hc]
    · cases hr : splitSlash cs with
      | nil =>
        rw [hr] at hx
        simp only [List.mem_singleton] at hx
        subst hx
        simp only [List.mem_singleton] at hc
        simp [hc]
      | cons h t =>
        rw [hr] at hx
        simp only [List.mem_cons] at hx
        rcases hx with rfl | hx
        · simp only [List.mem_cons] at hc
          rcases hc with rfl | hc
          · simp
          · have := ih h (by rw [hr]; simp) c hc
            simp [this]
        · have := ih x (by rw [hr]; simp [hx]) c hc
          simp [this]

theorem joinSlash_mem (segs : List (List Char)) :
    ∀ c ∈ joinSlash segs, c = '/' ∨ ∃ x ∈ segs, c ∈ x := by
  induction segs with
  | nil => simp [joinSlash]
  | cons a t ih =>
    cases t with
    | nil =>
      intro c hc
      right
      exact ⟨a, by simp, by simpa [joinSlash] using hc⟩
    | cons b t2 =>
      intro c hc
      rw [show joinSlash (a :: b :: t2) = a ++ '/' :: joinSlash (b :: t2) from rfl] at hc
      simp only [List.mem_append, List.mem_cons] at hc
      rcases hc with hc | rfl | hc
      · right; exact ⟨a, by simp, hc⟩
      · left; rfl
      · rcases ih c hc with rfl | ⟨x, hx, hcx⟩
        · left; rfl
        · right; exact ⟨x, by simp [hx], hcx⟩

theorem foldDots_mem (l : List (List Char)) :
    ∀ acc x, x ∈ l.foldl (fun acc seg => if seg = ['.', '.'] then acc.dropLast
      else if seg = ['.'] then acc else acc ++ [seg]) acc → x ∈ acc ∨ x ∈ l := by
  induction l with
  | nil => intro acc x hx; exact Or.inl hx
  | cons seg t ih =>
    intro acc x hx
    simp only [List.foldl_cons] at hx
    rcases ih _ x hx with hx' | hx'
    · by_cases h1 : seg = ['.', '.']
      · rw [if_pos h1] at hx'
        exact Or.inl ((List.dropLast_sublist _).subset hx')
      · rw [if_neg h1] at hx'
        by_cases h2 : seg = ['.']
        · rw [if_pos h2] at hx'
          exact Or.inl hx'
        · rw [if_neg h2] at hx'
          simp only [List.mem_append, List.mem_singleton] at hx'
          rcases hx' with hx' | rfl
          · exact Or.inl hx'
          · exact Or.inr (by simp)
    · exact Or.inr (by simp [hx'])

theorem resolveDots_mem (segs : List (List Char)) :
    ∀ x ∈ resolveDots segs, x ∈ segs ∨ x = [] := by
  intro x hx
  unfold resolveDots at hx
  dsimp only at hx
  cases hgl : segs.getLast? with
  | none =>
    rw [hgl] at hx
    dsimp only at hx
    rcases foldDots_mem segs [] x hx with h | h
    · exact absurd h (List.not_mem_nil x)
    · exact Or.inl h
  | some last =>
    rw [hgl] at hx
    dsimp only at hx
    by_cases hcond : last = ['.'] ∨ last = ['.', '.']
    · rw [if_pos hcond] at hx
      simp only [List.mem_append, List.mem_singleton] at hx
      rcases hx with hx | rfl
      · rcases foldDots_mem segs [] x hx with h | h
        · exact absurd h (List.not_mem_nil x)
        · exact Or.inl h
      · exact Or.inr rfl
    · rw [if_neg hcond] at hx
      rcases foldDots_mem segs [] x hx with h | h
      · exact absurd h (List.not_mem_nil x)
      · exact Or.inl h

theorem filterInner_subset (l : List (List Char)) : ∀ x ∈ filterInner l, x ∈ l := by
  induction l with
  | nil => simp [filterInner]
  | cons a t ih =>
    cases t with
    | nil => simp [filterInner]
    | cons b t2 =>
      intro x hx
      rw [show filterInner (a :: b :: t2) = if a.isEmpty then filterInner (b :: t2)
        else a :: filterInner (b :: t2) from rfl] at hx
      split at hx
      · simp [ih x hx]
      · simp only [List.mem_cons] at hx
        rcases hx with rfl | hx
        · simp
        · simp [ih x hx]

theorem filterMiddle_subset (l : List (List Char)) : ∀ x ∈ filterMiddle l, x ∈ l := by
  cases l with
  | nil => simp [filterMiddle]
  | cons f rest =>
    intro x hx
    rw [show filterMiddle (f :: rest) = f :: filterInner rest from rfl] at hx
    simp only [List.mem_cons] at hx
    rcases hx with rfl | hx
    · simp
    · simp [filterInner_subset rest x hx]

theorem delLastNonempty_subset (l : List (List Char)) :
    ∀ x ∈ delLastNonempty l, x ∈ l := by
  intro x hx
  unfold delLastNonempty at hx
  cases hgl : l.getLast? with
  | none =>
    rw [hgl] at hx
    dsimp only at hx
    exact hx
  | some last =>
    rw [hgl] at hx
    dsimp only at hx
    by_cases hl : last.isEmpty = true
    · rw [if_pos hl] at hx
      exact hx
    · rw [if_neg hl] at hx
      exact (List.dropLast_sublist _).subset hx

theorem uses_relative_sub_netloc : ∀ x ∈ uses_relative, x ∈ uses_netloc := by decide

theorem urljoinCore_nil_url {base : List Char} (hb : ¬base.isEmpty = true) :
    urljoinCore base [] = base := by
  unfold urljoinCore
  rw [if_neg hb, if_pos (by decide : (([] : List Char).isEmpty = true))]

theorem rp_mem (segs : List (List Char)) :
    ∀ c ∈ (if (joinSlash (resolveDots segs)).isEmpty = true then ['/']
      else joinSlash (resolveDots segs)),
      c = '/' ∨ ∃ x ∈ segs, c ∈ x := by
  intro c hc
  split at hc
  · simp only [List.mem_singleton] at hc
    exact Or.inl hc
  · rcases joinSlash_mem _ c hc with rfl | ⟨x, hx, hcx⟩
    · exact Or.inl rfl
    · rcases resolveDots_mem _ x hx with hx' | rfl
      · exact Or.inr ⟨x, hx', hcx⟩
      · simp at hcx

theorem urljoin_parse_facts {base url : List Char}
    (hbs : lowSchemeOk (urlsplitCore [] base).scheme)
    (hb2 : (urlsplitCore [] base).scheme ∈ uses_relative)
    (hb3 : (urlsplitCore [] base).netloc ≠ []) :
    lowSchemeOk (urlsplitCore [] (urljoinCore base url)).scheme ∧
      ((urlsplitCore [] (urljoinCore base url)).scheme ≠ (urlsplitCore [] base).scheme ∨
        (urlsplitCore [] (urljoinCore base url)).netloc ≠ []) := by
  have hbne : ¬base.isEmpty = true := by
    intro h
    rw [List.isEmpty_iff] at h
    exact (lowSchemeOk_props hbs).1 (by rw [h]; rfl)
  by_cases hu : url.isEmpty = true
  · rw [List.isEmpty_iff] at hu
    subst hu
    rw [urljoinCore_nil_url hbne]
    exact ⟨hbs, Or.inr hb3⟩
  · unfold urljoinCore
    rw [if_neg hbne, if_neg hu]
    dsimp only
    by_cases hbr : (urlsplitCore (urlsplitCore [] base).scheme url).scheme ≠
        (urlsplitCore [] base).scheme ∨
        (urlsplitCore (urlsplitCore [] base).scheme url).scheme ∉ uses_relative
    · rw [if_pos hbr]
      have hpne : (urlsplitCore (urlsplitCore [] base).scheme url).scheme ≠
          (urlsplitCore [] base).scheme := by
        rcases hbr with h | h
        · exact h
        · intro he
          exact h (by rw [he]; exact hb2)
      obtain ⟨hsch, -, -, -, -⟩ := urlsplitCore_dflt_eq (urlsplitCore [] base).scheme url
      rcases hsch with hsch | ⟨h0, hsch⟩
      · constructor
        · rcases urlsplitCore_scheme_cases (urlsplitCore [] base).scheme url with h | h
          · exact absurd h hpne
          · rw [← hsch]
            exact h
        · left
          rw [← hsch]
          exact hpne
      · exact absurd hsch hpne
    · rw [if_neg hbr]
      push_neg at hbr
      obtain ⟨hpeq, hprel⟩ := hbr
      have hpnet : (urlsplitCore (urlsplitCore [] base).scheme url).scheme ∈ uses_netloc :=
        uses_relative_sub_netloc _ hprel
      have hslow : lowSchemeOk (urlsplitCore (urlsplitCore [] base).scheme url).scheme := by
        rw [hpeq]
        exact hbs
      have hqok : '#' ∉ (if (urlsplitCore (urlsplitCore [] base).scheme url).query.isEmpty
          then (urlsplitCore [] base).query
          else (urlsplitCore (urlsplitCore [] base).scheme url).query) := by
        split
        · exact urlsplitCore_query_free [] base
        · exact urlsplitCore_query_free (urlsplitCore [] base).scheme url
      have hqsafe : ∀ c ∈ (if (urlsplitCore (urlsplitCore [] base).scheme url).query.isEmpty
          then (urlsplitCore [] base).query
          else (urlsplitCore (urlsplitCore [] base).scheme url).query),
          unsafeUrlByte c = false := by
        split
        · exact (urlsplitCore_parts_safe [] base).2.2.1
        · exact (urlsplitCore_parts_safe (urlsplitCore [] base).scheme url).2.2.1
      by_cases h2a : (urlsplitCore (urlsplitCore [] base).scheme url).scheme ∈ uses_netloc ∧
          ¬(urlsplitCore (urlsplitCore [] base).scheme url).netloc.isEmpty = true
      · rw [if_pos h2a]
        have hnl : (urlsplitCore (urlsplitCore [] base).scheme url).netloc ≠ [] := by
          simpa using h2a.2
        rw [urlsplitCore_unsplit [] hslow hnl
          (urlsplitCore_netloc_free (urlsplitCore [] base).scheme url)
          (urlsplitCore_path_free (urlsplitCore [] base).scheme url).1
          (urlsplitCore_path_free (urlsplitCore [] base).scheme url).2
          (urlsplitCore_query_free (urlsplitCore [] base).scheme url)
          ⟨(urlsplitCore_parts_safe (urlsplitCore [] base).scheme url).1,
            (urlsplitCore_parts_safe (urlsplitCore [] base).scheme url).2.1,
            (urlsplitCore_parts_safe (urlsplitCore [] base).scheme url).2.2.1,
            (urlsplitCore_parts_safe (urlsplitCore [] base).scheme url).2.2.2⟩]
        exact ⟨hslow, Or.inr hnl⟩
      · rw [if_neg h2a]
        rw [if_pos hpnet]
        by_cases hpath : (urlsplitCore (urlsplitCore [] base).scheme url).path.isEmpty = true
        · rw [if_pos hpath]
          rw [urlsplitCore_unsplit [] hslow hb3
            (urlsplitCore_netloc_free [] base)
            (urlsplitCore_path_free [] base).1
            (urlsplitCore_path_free [] base).2
            hqok
            ⟨(urlsplitCore_parts_safe [] base).1,
              (urlsplitCore_parts_safe [] base).2.1, hqsafe,
              (urlsplitCore_parts_safe (urlsplitCore [] base).scheme url).2.2.2⟩]
          exact ⟨hslow, Or.inr hb3⟩
        · rw [if_neg hpath]
          have hseg : ∀ x ∈ (if (urlsplitCore (urlsplitCore [] base).scheme url).path.head? =
              some '/'
              then splitSlash (urlsplitCore (urlsplitCore [] base).scheme url).path
              else filterMiddle (delLastNonempty (splitSlash (urlsplitCore [] base).path) ++
                splitSlash (urlsplitCore (urlsplitCore [] base).scheme url).path)),
              ∀ c ∈ x, c ∈ (urlsplitCore [] base).path ∨
                c ∈ (urlsplitCore (urlsplitCore [] base).scheme url).path := by
            split
            · intro x hx c hc
              exact Or.inr (splitSlash_mem _ x hx c hc)
            · intro x hx c hc
              rcases List.mem_append.mp (filterMiddle_subset _ x hx) with hx' | hx'
              · exact Or.inl (splitSlash_mem _ x (delLastNonempty_subset _ x hx') c hc)
              · exact Or.inr (splitSlash_mem _ x hx' c hc)
          have hrpmem : ∀ c ∈ (if (joinSlash (resolveDots
              (if (urlsplitCore (urlsplitCore [] base).scheme url).path.head? = some '/'
                then splitSlash (urlsplitCore (urlsplitCore [] base).scheme url).path
                else filterMiddle (delLastNonempty (splitSlash (urlsplitCore [] base).path) ++
                  splitSlash (urlsplitCore (urlsplitCore [] base).scheme url).path)))).isEmpty =
                true
              then ['/']
              else joinSlash (resolveDots
                (if (urlsplitCore (urlsplitCore [] base).scheme url).path.head? = some '/'
                  then splitSlash (urlsplitCore (urlsplitCore [] base).scheme url).path
                  else filterMiddle (delLastNonempty (splitSlash (urlsplitCore [] base).path) ++
                    splitSlash (urlsplitCore (urlsplitCore [] base).scheme url).path)))),
              c = '/' ∨ c ∈ (urlsplitCore [] base).path ∨
                c ∈ (urlsplitCore (urlsplitCore [] base).scheme url).path := by
            intro c hc
            rcases rp_mem _ c hc with rfl | ⟨x, hx, hcx⟩
            · exact Or.inl rfl
            · rcases hseg x hx c hcx with h | h
              · exact Or.inr (Or.inl h)
              · exact Or.inr (Or.inr h)
          rw [urlsplitCore_unsplit [] hslow hb3
            (urlsplitCore_netloc_free [] base)
            (fun hq => by
              rcases hrpmem '?' hq with h | h | h
              · exact absurd h (by decide)
              · exact (urlsplitCore_path_free [] base).1 h
              · exact (urlsplitCore_path_free (urlsplitCore [] base).scheme url).1 h)
            (fun hf => by
              rcases hrpmem '#' hf with h | h | h
              · exact absurd h (by decide)
              · exact (urlsplitCore_path_free [] base).2 h
              · exact (urlsplitCore_path_free (urlsplitCore [] base).scheme url).2 h)
            (urlsplitCore_query_free (urlsplitCore [] base).scheme url)
            ⟨(urlsplitCore_parts_safe [] base).1,
              (fun c hc => by
                rcases hrpmem c hc with rfl | h | h
                · decide
                · exact (urlsplitCore_parts_safe [] base).2.1 c h
                · exact (urlsplitCore_parts_safe (urlsplitCore [] base).scheme url).2.1 c h),
              (urlsplitCore_parts_safe (urlsplitCore [] base).scheme url).2.2.1,
              (urlsplitCore_parts_safe (urlsplitCore [] base).scheme url).2.2.2⟩]
          exact ⟨hslow, Or.inr hb3⟩

theorem join_render_fixed {base : List Char}
    (hbs : lowSchemeOk (urlsplitCore [] base).scheme)
    (hb2 : (urlsplitCore [] base).scheme ∈ uses_relative)
    {p : UrlParts} (hps : lowSchemeOk p.scheme)
    (hdisj : p.scheme ≠ (urlsplitCore [] base).scheme ∨ p.netloc ≠ [])
    (hnlf : ∀ c ∈ p.netloc, c ≠ '/' ∧ c ≠ '?' ∧ c ≠ '#')
    (hpaq : '?' ∉ p.path) (hpaf : '#' ∉ p.path)
    (hsafe1 : ∀ c ∈ p.netloc, unsafeUrlByte c = false)
    (hsafe2 : ∀ c ∈ p.path, unsafeUrlByte c = false) :
    renderUrl (urlsplitCore [] (urljoinCore base (renderUrl p))) = renderUrl p := by
  have hbne : ¬base.isEmpty = true := by
    intro h
    rw [List.isEmpty_iff] at h
    exact (lowSchemeOk_props hbs).1 (by rw [h]; rfl)
  have hsne : p.scheme ≠ [] := (lowSchemeOk_props hps).1
  have hren : renderUrl p = p.scheme ++ ':' :: '/' :: '/' :: (p.netloc ++ p.path) := rfl
  have hnne : ¬(renderUrl p).isEmpty = true := by
    rw [hren]
    cases hsc : p.scheme with
    | nil => exact absurd hsc hsne
    | cons a t => simp
  have hsafeNP : ∀ c ∈ p.netloc ++ p.path, unsafeUrlByte c = false := by
    intro c hc
    rcases List.mem_append.mp hc with hc | hc
    · exact hsafe1 c hc
    · exact hsafe2 c hc
  have hp2 : urlsplitCore (urlsplitCore [] base).scheme (renderUrl p) =
      ⟨p.scheme, p.netloc ++ (splitNetloc p.path).1, (splitNetloc p.path).2, [], []⟩ := by
    rw [hren]
    exact urlsplitCore_render _ hps hnlf hpaq hpaf hsafeNP
  unfold urljoinCore
  rw [if_neg hbne, if_neg hnne]
  dsimp only
  rw [hp2]
  dsimp only
  by_cases hcase : p.scheme = (urlsplitCore [] base).scheme
  · have hnl0 : p.netloc ≠ [] := by
      rcases hdisj with h | h
      · exact absurd hcase h
      · exact h
    rw [if_neg (by
      rintro (h | h)
      · exact h hcase
      · exact h (by rw [hcase]; exact hb2))]
    have hnl' : p.netloc ++ (splitNetloc p.path).1 ≠ [] := by
      intro h
      exact hnl0 (List.append_eq_nil.mp h).1
    rw [if_pos (⟨uses_relative_sub_netloc _ (by rw [hcase]; exact hb2),
      by simpa using hnl'⟩ :
        p.scheme ∈ uses_netloc ∧
        ¬(p.netloc ++ (splitNetloc p.path).1).isEmpty = true)]
    have hnlf' : ∀ c ∈ p.netloc ++ (splitNetloc p.path).1,
        c ≠ '/' ∧ c ≠ '?' ∧ c ≠ '#' := by
      intro c hc
      rcases List.mem_append.mp hc with hc | hc
      · exact hnlf c hc
      · exact splitNetloc_fst_free _ c hc
    have hpa'q : '?' ∉ (splitNetloc p.path).2 :=
      fun h => hpaq (splitNetloc_snd_subset _ _ h)
    have hpa'f : '#' ∉ (splitNetloc p.path).2 :=
      fun h => hpaf (splitNetloc_snd_subset _ _ h)
    rw [urlsplitCore_unsplit [] hps hnl' hnlf' hpa'q hpa'f (by simp)
      ⟨fun c hc => by
        rcases List.mem_append.mp hc with hc | hc
        · exact hsafe1 c hc
        · exact hsafe2 c (splitNetloc_fst_subset _ c hc),
       fun c hc => hsafe2 c (splitNetloc_snd_subset _ c hc),
       by simp, by simp⟩]
    have hfix : (if ¬(splitNetloc p.path).2.isEmpty = true ∧
        (splitNetloc p.path).2.head? ≠ some '/' then '/' :: (splitNetloc p.path).2
        else (splitNetloc p.path).2) = (splitNetloc p.path).2 := by
      rcases splitNetloc_snd_stop p.path with h | ⟨c, t, heq, hc⟩
      · rw [if_neg (by simp [h])]
      · have hc' : c = '/' := by
          rcases hc with rfl | rfl | rfl
          · rfl
          · exact absurd (by rw [heq]; simp : '?' ∈ (splitNetloc p.path).2) hpa'q
          · exact absurd (by rw [heq]; simp : '#' ∈ (splitNetloc p.path).2) hpa'f
        subst hc'
        rw [if_neg (by rw [heq]; simp)]
    rw [hfix, renderUrl_eq, hren, List.append_assoc, splitNetloc_recon]
  · rw [if_pos (Or.inl hcase), hren]
    exact renderUrl_reparse [] hps hnlf hpaq hpaf hsafeNP

theorem renderUrl_mem {p : UrlParts} {c : Char} (hc : c ∈ renderUrl p) :
    c ∈ p.scheme ∨ c = ':' ∨ c = '/' ∨ c ∈ p.netloc ∨ c ∈ p.path := by
  simp only [renderUrl, List.mem_append, List.mem_cons] at hc
  tauto

theorem render_parse_no_qf (u : List Char) :
    '?' ∉ renderUrl (urlsplitCore [] u) ∧ '#' ∉ renderUrl (urlsplitCore [] u) := by
  have hs : ∀ c ∈ (urlsplitCore [] u).scheme, c ≠ '?' ∧ c ≠ '#' := by
    intro c hc
    rcases urlsplitCore_scheme_cases [] u with h | h
    · rw [h] at hc
      simp at hc
    · have h2 := schemeChar_ne ((lowSchemeOk_props h).2 c hc)
      exact ⟨h2.2.2.1, h2.2.2.2⟩
  constructor
  · intro hc
    rcases renderUrl_mem hc with h | h | h | h | h
    · exact (hs _ h).1 rfl
    · exact absurd h (by decide)
    · exact absurd h (by decide)
    · exact (urlsplitCore_netloc_free [] u _ h).2.1 rfl
    · exact (urlsplitCore_path_free [] u).1 h
  · intro hc
    rcases renderUrl_mem hc with h | h | h | h | h
    · exact (hs _ h).2 rfl
    · exact absurd h (by decide)
    · exact absurd h (by decide)
    · exact (urlsplitCore_netloc_free [] u _ h).2.2 rfl
    · exact (urlsplitCore_path_free [] u).2 h

theorem normalizeUrl_no_qf (pageUrl href : String) :
    '?' ∉ (normalizeUrl pageUrl href).data ∧ '#' ∉ (normalizeUrl pageUrl href).data :=
  render_parse_no_qf (urljoinCore pageUrl.data href.data)

theorem normalizeUrl_idem {base href : String}
    (hbs : lowSchemeOk (urlparse base).scheme)
    (hb2 : (urlparse base).scheme ∈ uses_relative)
    (hb3 : (urlparse base).netloc ≠ []) :
    normalizeUrl base (normalizeUrl base href) = normalizeUrl base href := by
  obtain ⟨hps, hdisj⟩ := @urljoin_parse_facts base.data href.data hbs hb2 hb3
  have key := join_render_fixed hbs hb2 hps hdisj
    (urlsplitCore_netloc_free [] _)
    (urlsplitCore_path_free [] _).1 (urlsplitCore_path_free [] _).2
    (urlsplitCore_parts_safe [] _).1 (urlsplitCore_parts_safe [] _).2.1
  exact congrArg String.mk key

theorem crawlAux_inr_nil (web : Web) (maxUrls : Int) (fuel : Nat) (s : CrawlState) :
    crawlAux web maxUrls fuel (.inr []) s = some s := by
  cases fuel <;> rfl

theorem crawlAux_zero_inl (web : Web) (maxUrls : Int) (u : String) (s : CrawlState) :
    crawlAux web maxUrls 0 (.inl u) s = none := rfl

theorem crawlAux_zero_cons (web : Web) (maxUrls : Int) (l : String) (ls : List String)
    (s : CrawlState) : crawlAux web maxUrls 0 (.inr (l :: ls)) s = none := rfl

theorem crawlAux_succ_inl (web : Web) (maxUrls : Int) (fuel : Nat) (u : String)
    (s : CrawlState) :
    crawlAux web maxUrls (fuel + 1) (.inl u) s =
      crawlAux web maxUrls fuel
        (.inr (get_all_website_links web u
          { s with total_urls_visited := s.total_urls_visited + 1 }).1)
        (get_all_website_links web u
          { s with total_urls_visited := s.total_urls_visited + 1 }).2 := rfl

theorem crawlAux_succ_cons (web : Web) (maxUrls : Int) (fuel : Nat) (l : String)
    (ls : List String) (s : CrawlState) :
    crawlAux web maxUrls (fuel + 1) (.inr (l :: ls)) s =
      if (s.total_urls_visited : Int) > maxUrls then some s
      else match crawlAux web maxUrls fuel (.inl l) s with
        | none => none
        | some t => crawlAux web maxUrls fuel (.inr ls) t := rfl

theorem processHref_cases (pageUrl : String) (domain : List Char)
    (acc : List String × CrawlState) (href : String) :
    processHref pageUrl domain acc href = acc ∨
    (∃ e, e ∉ acc.2.email_addresses ∧ processHref pageUrl domain acc href =
      (acc.1, { acc.2 with email_addresses := acc.2.email_addresses ++ [e] })) ∨
    (∃ h, urlOk h ∧ h ∉ acc.2.external_urls ∧ processHref pageUrl domain acc href =
      (acc.1, { acc.2 with external_urls := acc.2.external_urls ++ [h] })) ∨
    (∃ h, urlOk h ∧ h ∉ acc.2.internal_urls ∧ processHref pageUrl domain acc href =
      (acc.1 ++ [h], { acc.2 with internal_urls := acc.2.internal_urls ++ [h] })) := by
  unfold processHref
  by_cases h0 : href = ""
  · rw [if_pos h0]
    exact Or.inl rfl
  · rw [if_neg h0]
    cases hm : is_mail_link href with
    | some email =>
      dsimp only
      by_cases he : email ∈ acc.2.email_addresses
      · rw [if_pos he]
        exact Or.inl rfl
      · rw [if_neg he]
        exact Or.inr (Or.inl ⟨email, he, rfl⟩)
    | none =>
      dsimp only
      by_cases hv : is_valid (normalizeUrl pageUrl href) = false
      · rw [if_pos hv]
        exact Or.inl rfl
      · rw [if_neg hv]
        have hok : urlOk (normalizeUrl pageUrl href) :=
          ⟨by revert hv; cases is_valid (normalizeUrl pageUrl href) <;> simp,
           (normalizeUrl_no_qf pageUrl href).1, (normalizeUrl_no_qf pageUrl href).2⟩
        by_cases hi : normalizeUrl pageUrl href ∈ acc.2.internal_urls
        · rw [if_pos hi]
          exact Or.inl rfl
        · rw [if_neg hi]
          by_cases hd : containsSub domain (normalizeUrl pageUrl href).data = false
          · rw [if_pos hd]
            by_cases hx : normalizeUrl pageUrl href ∈ acc.2.external_urls
            · rw [if_pos hx]
              exact Or.inl rfl
            · rw [if_neg hx]
              exact Or.inr (Or.inr (Or.inl ⟨_, hok, hx, rfl⟩))
          · rw [if_neg hd]
            exact Or.inr (Or.inr (Or.inr ⟨_, hok, hi, rfl⟩))

theorem processHref_fold (pageUrl : String) (domain : List Char) :
    ∀ (hrefs : List String) (u0 : List String) (t : CrawlState),
      ∃ L E M,
        (hrefs.foldl (processHref pageUrl domain) (u0, t)).1 = u0 ++ L ∧
        (hrefs.foldl (processHref pageUrl domain) (u0, t)).2 =
          { t with internal_urls := t.internal_urls ++ L,
                   external_urls := t.external_urls ++ E,
                   email_addresses := t.email_addresses ++ M } ∧
        L.Nodup ∧ (∀ h ∈ L, h ∉ t.internal_urls ∧ urlOk h) ∧ (∀ h ∈ E, urlOk h) := by
  intro hrefs
  induction hrefs with
  | nil =>
    intro u0 t
    exact ⟨[], [], [], by simp, by simp, List.nodup_nil, by simp, by simp⟩
  | cons href hrefs ih =>
    intro u0 t
    rw [List.foldl_cons]
    rcases processHref_cases pageUrl domain (u0, t) href with
      hcase | ⟨e, he, hcase⟩ | ⟨h, hok, hx, hcase⟩ | ⟨h, hok, hi, hcase⟩
    · rw [hcase]
      exact ih u0 t
    · rw [hcase]
      obtain ⟨L, E, M, h1, h2, h3, h4, h5⟩ :=
        ih u0 { t with email_addresses := t.email_addresses ++ [e] }
      refine ⟨L, E, e :: M, h1, ?_, h3, h4, h5⟩
      rw [h2]
      simp [List.append_assoc]
    · rw [hcase]
      obtain ⟨L, E, M, h1, h2, h3, h4, h5⟩ :=
        ih u0 { t with external_urls := t.external_urls ++ [h] }
      refine ⟨L, h :: E, M, h1, ?_, h3, h4, ?_⟩
      · rw [h2]
        simp [List.append_assoc]
      · intro x hxm
        rcases List.mem_cons.mp hxm with rfl | hxm
        · exact hok
        · exact h5 x hxm
    · rw [hcase]
      obtain ⟨L, E, M, h1, h2, h3, h4, h5⟩ :=
        ih (u0 ++ [h]) { t with internal_urls := t.internal_urls ++ [h] }
      refine ⟨h :: L, E, M, ?_, ?_, ?_, ?_, h5⟩
      · rw [h1]
        simp [List.append_assoc]
      · rw [h2]
        simp [List.append_assoc]
      · refine List.nodup_cons.mpr ⟨fun hc => ?_, h3⟩
        exact (h4 h hc).1 (by simp)
      · intro x hxm
        rcases List.mem_cons.mp hxm with rfl | hxm
        · exact ⟨hi, hok⟩
        · exact ⟨fun hc => (h4 x hxm).1 (List.mem_append_left _ hc), (h4 x hxm).2⟩

theorem gawl_fail {web : Web} {url : String} (h : web url = none) (s : CrawlState) :
    get_all_website_links web url s =
      ([], { s with fetchLog := s.fetchLog ++ [url],
                    failures := s.failures ++ [url] }) := by
  unfold get_all_website_links
  rw [h]

theorem gawl_some {web : Web} {url : String} {hrefs : List String}
    (h : web url = some hrefs) (s : CrawlState) :
    get_all_website_links web url s =
      hrefs.foldl (processHref url (urlparse url).netloc)
        ([], { s with fetchLog := s.fetchLog ++ [url] }) := by
  unfold get_all_website_links
  rw [h]

theorem gawl_spec (web : Web) (url : String) (s : CrawlState) :
    ∃ E M F,
      (get_all_website_links web url s).2 =
        { s with
          internal_urls := s.internal_urls ++ (get_all_website_links web url s).1,
          external_urls := s.external_urls ++ E,
          email_addresses := s.email_addresses ++ M,
          fetchLog := s.fetchLog ++ [url],
          failures := s.failures ++ F } ∧
      (get_all_website_links web url s).1.Nodup ∧
      (∀ h ∈ (get_all_website_links web url s).1, h ∉ s.internal_urls ∧ urlOk h) ∧
      (∀ h ∈ E, urlOk h) := by
  cases hw : web url with
  | none =>
    rw [gawl_fail hw]
    exact ⟨[], [], [url], by simp, List.nodup_nil, by simp, by simp⟩
  | some hrefs =>
    rw [gawl_some hw]
    obtain ⟨L, E, M, h1, h2, h3, h4, h5⟩ :=
      processHref_fold url (urlparse url).netloc hrefs []
        { s with fetchLog := s.fetchLog ++ [url] }
    refine ⟨E, M, [], ?_, ?_, ?_, h5⟩
    · rw [h2, h1]
      simp
    · rw [h1]
      simpa using h3
    · rw [h1]
      intro x hxm
      exact h4 x (by simpa using hxm)

theorem gawl_total (web : Web) (url : String) (s : CrawlState) :
    (get_all_website_links web url s).2.total_urls_visited = s.total_urls_visited := by
  obtain ⟨E, M, F, h1, -, -, -⟩ := gawl_spec web url s
  rw [h1]

theorem fuelNeed_inr_le (maxUrls : Int) (ls : List String) (s : CrawlState) :
    fuelNeed maxUrls (.inr ls) s ≤
      2 * (maxUrls.toNat + 1 - s.total_urls_visited) + 1 := by
  cases ls <;> simp [fuelNeed]

theorem crawlAux_urlsOk (web : Web) (maxUrls : Int) :
    ∀ fuel w s r, crawlAux web maxUrls fuel w s = some r →
      stateUrlsOk s → stateUrlsOk r := by
  intro fuel
  induction fuel with
  | zero =>
    intro w s r hr hs
    match w with
    | .inl u => rw [crawlAux_zero_inl] at hr; exact absurd hr (by simp)
    | .inr [] => rw [crawlAux_inr_nil] at hr; cases hr; exact hs
    | .inr (l :: ls) => rw [crawlAux_zero_cons] at hr; exact absurd hr (by simp)
  | succ f ih =>
    intro w s r hr hs
    match w with
    | .inr [] => rw [crawlAux_inr_nil] at hr; cases hr; exact hs
    | .inl u =>
      rw [crawlAux_succ_inl] at hr
      refine ih _ _ _ hr ?_
      obtain ⟨E, M, F, h1, -, h4, h5⟩ :=
        gawl_spec web u { s with total_urls_visited := s.total_urls_visited + 1 }
      rw [h1]
      refine ⟨fun x hx => ?_, fun x hx => ?_⟩
      · rcases List.mem_append.mp hx with hx | hx
        · exact hs.1 x hx
        · exact (h4 x hx).2
      · rcases List.mem_append.mp hx with hx | hx
        · exact hs.2 x hx
        · exact h5 x hx
    | .inr (l :: ls) =>
      rw [crawlAux_succ_cons] at hr
      by_cases hb : (s.total_urls_visited : Int) > maxUrls
      · rw [if_pos hb] at hr
        cases hr
        exact hs
      · rw [if_neg hb] at hr
        cases hcl : crawlAux web maxUrls f (.inl l) s with
        | none => rw [hcl] at hr; exact absurd hr (by simp)
        | some t =>
          rw [hcl] at hr
          dsimp only at hr
          exact ih _ _ _ hr (ih _ _ _ hcl hs)

theorem crawlAux_total_mono (web : Web) (maxUrls : Int) :
    ∀ fuel w s r, crawlAux web maxUrls fuel w s = some r →
      s.total_urls_visited + pendingVisits w ≤ r.total_urls_visited := by
  intro fuel
  induction fuel with
  | zero =>
    intro w s r hr
    match w with
    | .inl u => rw [crawlAux_zero_inl] at hr; exact absurd hr (by simp)
    | .inr [] => rw [crawlAux_inr_nil] at hr; cases hr; simp [pendingVisits]
    | .inr (l :: ls) => rw [crawlAux_zero_cons] at hr; exact absurd hr (by simp)
  | succ f ih =>
    intro w s r hr
    match w with
    | .inr [] => rw [crawlAux_inr_nil] at hr; cases hr; simp [pendingVisits]
    | .inl u =>
      rw [crawlAux_succ_inl] at hr
      have h2 := ih _ _ _ hr
      have h3 : (get_all_website_links web u
          { s with total_urls_visited := s.total_urls_visited + 1
          }).2.total_urls_visited = s.total_urls_visited + 1 := by
        rw [gawl_total]
      simp only [pendingVisits] at h2 ⊢
      omega
    | .inr (l :: ls) =>
      rw [crawlAux_succ_cons] at hr
      by_cases hb : (s.total_urls_visited : Int) > maxUrls
      · rw [if_pos hb] at hr
        cases hr
        simp [pendingVisits]
      · rw [if_neg hb] at hr
        cases hcl : crawlAux web maxUrls f (.inl l) s with
        | none => rw [hcl] at hr; exact absurd hr (by simp)
        | some t =>
          rw [hcl] at hr
          dsimp only at hr
          have h1 := ih _ _ _ hcl
          have h2 := ih _ _ _ hr
          simp only [pendingVisits] at h1 h2 ⊢
          omega

theorem crawlAux_total_bound (web : Web) (maxUrls : Int) :
    ∀ fuel w s r, crawlAux web maxUrls fuel w s = some r →
      r.total_urls_visited ≤ s.total_urls_visited + pendingVisits w ∨
        r.total_urls_visited ≤ maxUrls.toNat + 1 := by
  intro fuel
  induction fuel with
  | zero =>
    intro w s r hr
    match w with
    | .inl u => rw [crawlAux_zero_inl] at hr; exact absurd hr (by simp)
    | .inr [] => rw [crawlAux_inr_nil] at hr; cases hr; simp [pendingVisits]
    | .inr (l :: ls) => rw [crawlAux_zero_cons] at hr; exact absurd hr (by simp)
  | succ f ih =>
    intro w s r hr
    match w with
    | .inr [] => rw [crawlAux_inr_nil] at hr; cases hr; simp [pendingVisits]
    | .inl u =>
      rw [crawlAux_succ_inl] at hr
      have h2 := ih _ _ _ hr
      have h3 : (get_all_website_links web u
          { s with total_urls_visited := s.total_urls_visited + 1
          }).2.total_urls_visited = s.total_urls_visited + 1 := by
        rw [gawl_total]
      simp only [pendingVisits] at h2 ⊢
      omega
    | .inr (l :: ls) =>
      rw [crawlAux_succ_cons] at hr
      by_cases hb : (s.total_urls_visited : Int) > maxUrls
      · rw [if_pos hb] at hr
        cases hr
        simp [pendingVisits]
      · rw [if_neg hb] at hr
        cases hcl : crawlAux web maxUrls f (.inl l) s with
        | none => rw [hcl] at hr; exact absurd hr (by simp)
        | some t =>
          rw [hcl] at hr
          dsimp only at hr
          have h1 := crawlAux_total_mono web maxUrls f _ _ _ hcl
          have hb1 := ih _ _ _ hcl
          have h2 := ih _ _ _ hr
          simp only [pendingVisits] at h1 hb1 h2 ⊢
          omega

theorem crawlAux_isSome (web : Web) (maxUrls : Int) :
    ∀ fuel w s, fuelNeed maxUrls w s ≤ fuel →
      ∃ r, crawlAux web maxUrls fuel w s = some r := by
  intro fuel
  induction fuel with
  | zero =>
    intro w s hf
    match w with
    | .inr [] => exact ⟨s, crawlAux_inr_nil _ _ _ _⟩
    | .inl u => exfalso; simp only [fuelNeed] at hf; omega
    | .inr (l :: ls) => exfalso; simp only [fuelNeed] at hf; omega
  | succ f ih =>
    intro w s hf
    match w with
    | .inr [] => exact ⟨s, crawlAux_inr_nil _ _ _ _⟩
    | .inl u =>
      rw [crawlAux_succ_inl]
      refine ih _ _ (le_trans (fuelNeed_inr_le _ _ _) ?_)
      have h3 : (get_all_website_links web u
          { s with total_urls_visited := s.total_urls_visited + 1
          }).2.total_urls_visited = s.total_urls_visited + 1 := by
        rw [gawl_total]
      rw [h3]
      simp only [fuelNeed] at hf
      omega
    | .inr (l :: ls) =>
      rw [crawlAux_succ_cons]
      by_cases hb : (s.total_urls_visited : Int) > maxUrls
      · exact ⟨s, by rw [if_pos hb]⟩
      · rw [if_neg hb]
        simp only [fuelNeed] at hf
        have hle : (s.total_urls_visited : Int) ≤ maxUrls := not_lt.mp hb
        have h1 : fuelNeed maxUrls (.inl l) s ≤ f := by
          simp only [fuelNeed]
          omega
        obtain ⟨t, ht⟩ := ih (.inl l) s h1
        have hmono := crawlAux_total_mono web maxUrls f (.inl l) s t ht
        simp only [pendingVisits] at hmono
        have h2 : fuelNeed maxUrls (.inr ls) t ≤ f :=
          le_trans (fuelNeed_inr_le _ _ _) (by omega)
        obtain ⟨r, hrr⟩ := ih (.inr ls) t h2
        refine ⟨r, ?_⟩
        rw [ht]
        dsimp only
        exact hrr

theorem crawlRun_isSome (web : Web) (maxUrls : Int) (url : String) :
    ∃ r, crawlRun web maxUrls url = some r := by
  apply crawlAux_isSome
  have h0 : initState.total_urls_visited = 0 := rfl
  simp only [fuelNeed, h0]
  omega

theorem crawlRun_total_le (web : Web) (maxUrls : Int) (url : String) (r : CrawlState)
    (hr : crawlRun web maxUrls url = some r) :
    r.total_urls_visited ≤ maxUrls.toNat + 1 := by
  have h := crawlAux_total_bound web maxUrls _ _ _ _ hr
  have h0 : initState.total_urls_visited = 0 := rfl
  rw [h0] at h
  simp only [pendingVisits] at h
  omega

theorem crawlRun_urlsOk (web : Web) (maxUrls : Int) (url : String) (r : CrawlState)
    (hr : crawlRun web maxUrls url = some r) : stateUrlsOk r := by
  refine crawlAux_urlsOk web maxUrls _ _ _ _ hr ⟨?_, ?_⟩ <;> simp [initState]

theorem count_snoc (l : List String) (u v : String) :
    (l ++ [u]).count v = l.count v + if v = u then 1 else 0 := by
  by_cases h : v = u
  · subst h
    simp [List.count_append]
  · simp [List.count_append, List.count_cons, h, Ne.symm h]

theorem gBound_mono {s t : CrawlState} (seed v : String)
    (h : ∀ x ∈ s.internal_urls, x ∈ t.internal_urls) :
    gBound seed v s ≤ gBound seed v t := by
  unfold gBound
  by_cases hv : v ∈ s.internal_urls
  · rw [if_pos hv, if_pos (h v hv)]
  · rw [if_neg hv]
    by_cases hv2 : v ∈ t.internal_urls
    · rw [if_pos hv2]
      exact Nat.add_le_add_right (Nat.zero_le 1) _
    · rw [if_neg hv2]

theorem crawlAux_fetch (web : Web) (maxUrls : Int) (seed : String) : ∀ fuel : Nat,
    (∀ u s r, crawlAux web maxUrls fuel (.inl u) s = some r →
      fetchBound seed s → s.fetchLog.count u < gBound seed u s →
      fetchBound seed r ∧ (∃ A, r.internal_urls = s.internal_urls ++ A) ∧
        ∀ v ∈ s.internal_urls, v ≠ u → r.fetchLog.count v = s.fetchLog.count v) ∧
    (∀ ls s r, crawlAux web maxUrls fuel (.inr ls) s = some r →
      fetchBound seed s → ls.Nodup →
      (∀ l ∈ ls, l ∈ s.internal_urls ∧ s.fetchLog.count l < gBound seed l s) →
      fetchBound seed r ∧ (∃ A, r.internal_urls = s.internal_urls ++ A) ∧
        ∀ v ∈ s.internal_urls, v ∉ ls → r.fetchLog.count v = s.fetchLog.count v) := by
  intro fuel
  induction fuel with
  | zero =>
    constructor
    · intro u s r hr
      rw [crawlAux_zero_inl] at hr
      exact absurd hr (by simp)
    · intro ls s r hr hInv hnd hpre
      cases ls with
      | nil =>
        rw [crawlAux_inr_nil] at hr
        cases hr
        exact ⟨hInv, ⟨[], by simp⟩, fun v hv hvn => rfl⟩
      | cons l ls =>
        rw [crawlAux_zero_cons] at hr
        exact absurd hr (by simp)
  | succ f ih =>
    obtain ⟨ih1, ih2⟩ := ih
    constructor
    · intro u s r hr hInv hcnt
      rw [crawlAux_succ_inl] at hr
      obtain ⟨E, M, F, hst, hnodup, hfresh, -⟩ :=
        gawl_spec web u { s with total_urls_visited := s.total_urls_visited + 1 }
      have h_int : (get_all_website_links web u
          { s with total_urls_visited := s.total_urls_visited + 1 }).2.internal_urls =
          s.internal_urls ++ (get_all_website_links web u
            { s with total_urls_visited := s.total_urls_visited + 1 }).1 := by
        rw [hst]
      have h_log : (get_all_website_links web u
          { s with total_urls_visited := s.total_urls_visited + 1 }).2.fetchLog =
          s.fetchLog ++ [u] := by
        rw [hst]
      generalize hG : get_all_website_links web u
        { s with total_urls_visited := s.total_urls_visited + 1 } = gr
        at hr hnodup hfresh h_int h_log
      have hmono : ∀ x ∈ s.internal_urls, x ∈ gr.2.internal_urls := by
        intro x hx
        rw [h_int]
        exact List.mem_append_left _ hx
      have hInv2 : fetchBound seed gr.2 := by
        intro v
        show gr.2.fetchLog.count v ≤ gBound seed v gr.2
        rw [h_log, count_snoc]
        by_cases hvu : v = u
        · subst hvu
          rw [if_pos rfl]
          have h2 : gBound seed v s ≤ gBound seed v gr.2 := gBound_mono seed v hmono
          have h1 := hcnt
          omega
        · rw [if_neg hvu]
          have h1 : s.fetchLog.count v ≤ gBound seed v s := hInv v
          have h2 : gBound seed v s ≤ gBound seed v gr.2 := gBound_mono seed v hmono
          omega
      have hpre2 : ∀ l ∈ gr.1, l ∈ gr.2.internal_urls ∧
          gr.2.fetchLog.count l < gBound seed l gr.2 := by
        intro l hl
        have hfr : l ∉ s.internal_urls := (hfresh l hl).1
        have hmem : l ∈ gr.2.internal_urls := by
          rw [h_int]
          exact List.mem_append_right _ hl
        have hg2 : gBound seed l gr.2 = 1 + (if l = seed then 1 else 0) := by
          unfold gBound
          rw [if_pos hmem]
        have hgs : gBound seed l s = 0 + (if l = seed then 1 else 0) := by
          unfold gBound
          rw [if_neg hfr]
        refine ⟨hmem, ?_⟩
        rw [h_log, count_snoc, hg2]
        by_cases hlu : l = u
        · subst hlu
          rw [if_pos rfl]
          have h1 := hcnt
          rw [hgs] at h1
          omega
        · rw [if_neg hlu]
          have h1 : s.fetchLog.count l ≤ gBound seed l s := hInv l
          rw [hgs] at h1
          omega
      obtain ⟨hInvr, ⟨A, hA⟩, hpres⟩ := ih2 gr.1 gr.2 r hr hInv2 hnodup hpre2
      refine ⟨hInvr, ⟨gr.1 ++ A, ?_⟩, ?_⟩
      · rw [hA, h_int, List.append_assoc]
      · intro v hv hvu
        have hv2 : v ∈ gr.2.internal_urls := hmono v hv
        have hvL : v ∉ gr.1 := fun hc => (hfresh v hc).1 hv
        rw [hpres v hv2 hvL, h_log, count_snoc, if_neg hvu]
        omega
    · intro ls s r hr hInv hnd hpre
      cases ls with
      | nil =>
        rw [crawlAux_inr_nil] at hr
        cases hr
        exact ⟨hInv, ⟨[], by simp⟩, fun v hv hvn => rfl⟩
      | cons l ls =>
        rw [crawlAux_succ_cons] at hr
        by_cases hb : (s.total_urls_visited : Int) > maxUrls
        · rw [if_pos hb] at hr
          cases hr
          exact ⟨hInv, ⟨[], by simp⟩, fun v hv hvn => rfl⟩
        · rw [if_neg hb] at hr
          cases hcl : crawlAux web maxUrls f (.inl l) s with
          | none =>
            rw [hcl] at hr
            exact absurd hr (by simp)
          | some t =>
            rw [hcl] at hr
            dsimp only at hr
            have hl0 := hpre l (by simp)
            obtain ⟨hInvt, ⟨A1, hA1⟩, hprest⟩ := ih1 l s t hcl hInv hl0.2
            have hndtail : ls.Nodup := (List.nodup_cons.mp hnd).2
            have hlnot : l ∉ ls := (List.nodup_cons.mp hnd).1
            have hmono1 : ∀ x ∈ s.internal_urls, x ∈ t.internal_urls := by
              intro x hx
              rw [hA1]
              exact List.mem_append_left _ hx
            have hpre2 : ∀ x ∈ ls, x ∈ t.internal_urls ∧
                t.fetchLog.count x < gBound seed x t := by
              intro x hx
              have hx0 := hpre x (by simp [hx])
              have hxl : x ≠ l := fun hc => hlnot (hc ▸ hx)
              refine ⟨hmono1 x hx0.1, ?_⟩
              rw [hprest x hx0.1 hxl]
              exact lt_of_lt_of_le hx0.2 (gBound_mono seed x hmono1)
            obtain ⟨hInvr, ⟨A2, hA2⟩, hpresr⟩ := ih2 ls t r hr hInvt hndtail hpre2
            refine ⟨hInvr, ⟨A1 ++ A2, ?_⟩, ?_⟩
            · rw [hA2, hA1, List.append_assoc]
            · intro v hv hvn
              have hvls : v ∉ ls := fun hc => hvn (by simp [hc])
              have hvl : v ≠ l := fun hc => hvn (by simp [hc])
              rw [hpresr v (hmono1 v hv) hvls, hprest v hv hvl]

theorem crawlRun_fetchBound (web : Web) (maxUrls : Int) (url : String) (r : CrawlState)
    (hr : crawlRun web maxUrls url = some r) : fetchBound url r := by
  refine ((crawlAux_fetch web maxUrls url (2 * maxUrls.toNat + 3)).1 url initState r hr
    ?_ ?_).1
  · intro v
    have h0 : (initState.fetchLog).count v = 0 := rfl
    rw [h0]
    exact Nat.zero_le _
  · have h0 : (initState.fetchLog).count url = 0 := rfl
    rw [h0]
    have h1 : gBound url url initState = 1 := by
      unfold gBound
      rw [if_neg (by simp [initState]), if_pos rfl]
    rw [h1]
    exact Nat.zero_lt_one

theorem crawl_fail_step {web : Web} {l : String} (hfail : web l = none)
    (maxUrls : Int) (f : Nat) (s : CrawlState) :
    crawlAux web maxUrls (f + 1) (.inl l) s = some (visitFail s l) := by
  rw [crawlAux_succ_inl, gawl_fail hfail]
  dsimp only
  exact crawlAux_inr_nil _ _ _ _

theorem crawl_continue_after_fail {web : Web} {l : String} (hfail : web l = none)
    (maxUrls : Int) (f : Nat) (ls : List String) (s : CrawlState)
    (hb : ¬(s.total_urls_visited : Int) > maxUrls) :
    crawlAux web maxUrls (f + 1 + 1) (.inr (l :: ls)) s =
      crawlAux web maxUrls (f + 1) (.inr ls) (visitFail s l) := by
  rw [crawlAux_succ_cons, if_neg hb, crawl_fail_step hfail]

/-- C1 (amended): in any crawl run a URL other than the seed is fetched at
most once, but the seed itself can be fetched up to twice (it is never put in
`internal_urls` before its own fetch, so a page linking back to the seed
re-offers it once). -/
theorem fetch_count_bound_per_run (web : Web) (maxUrls : Int) (url v : String) :
    ((crawlRun web maxUrls url).getD initState).fetchLog.count v ≤
      if v = url then 2 else 1 := by
  obtain ⟨r, hr⟩ := crawlRun_isSome web maxUrls url
  rw [hr, Option.getD_some]
  have h : r.fetchLog.count v ≤ (if v ∈ r.internal_urls then 1 else 0) +
      (if v = url then 1 else 0) := crawlRun_fetchBound web maxUrls url r hr v
  by_cases h1 : v ∈ r.internal_urls
  · rw [if_pos h1] at h
    by_cases h2 : v = url
    · rw [if_pos h2] at h ⊢
      omega
    · rw [if_neg h2] at h ⊢
      omega
  · rw [if_neg h1] at h
    by_cases h2 : v = url
    · rw [if_pos h2] at h ⊢
      omega
    · rw [if_neg h2] at h ⊢
      omega

/-- C1 counterexample: on the one-page cycle (the seed links back to itself)
the seed URL is fetched twice within a single run, so no target is fetched
"at most once" including the seed. -/
theorem seed_refetched_in_cycle :
    ((crawlRun loopWeb 5 "http://a.x/p").getD initState).fetchLog.count
      "http://a.x/p" = 2 := by decide

/-- C2 (amended): the visit counter can exceed the budget by exactly one (the
seed call is not guarded), and never by more; the infinite chain with budget
10 terminates with 11 visits, not 10. -/
theorem visited_count_bound :
    (∀ (web : Web) (maxUrls : Int) (url : String),
      ((crawlRun web maxUrls url).getD initState).total_urls_visited ≤
        maxUrls.toNat + 1) ∧
    ((crawlRun chainWeb 10 chainSeed).getD initState).total_urls_visited = 11 := by
  constructor
  · intro web maxUrls url
    obtain ⟨r, hr⟩ := crawlRun_isSome web maxUrls url
    rw [hr, Option.getD_some]
    exact crawlRun_total_le web maxUrls url r hr
  · decide

/-- C2 counterexample: crawling the synthetic infinite chain with budget 10
visits 11 targets — the count exceeds the budget and is not exactly 10. -/
theorem budget_exceeded_by_one :
    ((crawlRun chainWeb 10 chainSeed).getD initState).total_urls_visited ≠ 10 ∧
    10 < ((crawlRun chainWeb 10 chainSeed).getD initState).total_urls_visited := by
  decide

/-- C3 (amended): for a fresh valid resolved URL the crawler labels it
Internal exactly when the current page's domain string occurs as a substring
of the whole resolved URL (not when hosts are equal), and only then adds it
to the frontier list; this substring test fires across distinct hosts. -/
theorem classification_by_substring (pageUrl : String) (domain : List Char)
    (acc : List String × CrawlState) (href : String)
    (h0 : href ≠ "") (hm : is_mail_link href = none)
    (hv : is_valid (normalizeUrl pageUrl href) = true)
    (hi : normalizeUrl pageUrl href ∉ acc.2.internal_urls)
    (hx : normalizeUrl pageUrl href ∉ acc.2.external_urls) :
    (processHref pageUrl domain acc href =
      if containsSub domain (normalizeUrl pageUrl href).data = true then
        (acc.1 ++ [normalizeUrl pageUrl href],
         { acc.2 with internal_urls :=
            acc.2.internal_urls ++ [normalizeUrl pageUrl href] })
      else
        (acc.1,
         { acc.2 with external_urls :=
            acc.2.external_urls ++ [normalizeUrl pageUrl href] })) ∧
    containsSub (urlparse "http://a.x/").netloc
      (normalizeUrl "http://a.x/" "http://ba.x/q").data = true ∧
    (urlparse (normalizeUrl "http://a.x/" "http://ba.x/q")).netloc ≠
      (urlparse "http://a.x/").netloc := by
  refine ⟨?_, by decide, by decide⟩
  unfold processHref
  rw [if_neg h0, hm]
  dsimp only
  rw [if_neg (by simp [hv]), if_neg hi]
  by_cases hd : containsSub domain (normalizeUrl pageUrl href).data = false
  · rw [if_pos hd, if_neg hx, if_neg (by simp [hd])]
  · have hd' : containsSub domain (normalizeUrl pageUrl href).data = true := by
      revert hd
      cases containsSub domain (normalizeUrl pageUrl href).data <;> simp
    rw [if_neg hd, if_pos hd']

theorem classification_by_substring_witness :
    ("http://ba.x/q" : String) ≠ "" ∧
    is_mail_link "http://ba.x/q" = none ∧
    is_valid (normalizeUrl "http://a.x/" "http://ba.x/q") = true ∧
    normalizeUrl "http://a.x/" "http://ba.x/q" ∉ initState.internal_urls ∧
    normalizeUrl "http://a.x/" "http://ba.x/q" ∉ initState.external_urls ∧
    (processHref "http://a.x/" (urlparse "http://a.x/").netloc ([], initState)
        "http://ba.x/q" =
      if containsSub (urlparse "http://a.x/").netloc
          (normalizeUrl "http://a.x/" "http://ba.x/q").data = true then
        ([] ++ [normalizeUrl "http://a.x/" "http://ba.x/q"],
         { initState with internal_urls :=
            initState.internal_urls ++ [normalizeUrl "http://a.x/" "http://ba.x/q"] })
      else
        ([],
         { initState with external_urls :=
            initState.external_urls ++
              [normalizeUrl "http://a.x/" "http://ba.x/q"] })) :=
  ⟨by decide, by decide, by decide, by decide, by decide,
    (classification_by_substring "http://a.x/" (urlparse "http://a.x/").netloc
      ([], initState) "http://ba.x/q" (by decide) (by decide) (by decide)
      (by decide) (by decide)).1⟩

/-- C3 counterexample: the page http://a.x/ links to http://ba.x/q, whose
host ba.x differs from a.x, yet the URL is classified Internal (a.x is a
substring of the resolved string), enters the frontier and is fetched. -/
theorem substring_domain_misclassifies :
    (urlparse "http://ba.x/q").netloc ≠ (urlparse "http://a.x/").netloc ∧
    ((crawlRun confusableWeb 1 "http://a.x/").getD initState).internal_urls =
      ["http://ba.x/q"] ∧
    ((crawlRun confusableWeb 1 "http://a.x/").getD initState).fetchLog =
      ["http://a.x/", "http://ba.x/q"] := by decide

/-- C4: normalization resolves the href against the page URL and keeps only
scheme://host+path — no normalized URL ever contains a query string or
fragment; the example pair differing only in query/fragment collapses to one
target which is fetched exactly once. -/
theorem normalization_strips_query_fragment :
    (∀ pageUrl href : String, '?' ∉ (normalizeUrl pageUrl href).data ∧
      '#' ∉ (normalizeUrl pageUrl href).data) ∧
    normalizeUrl "https://example.com" "https://example.com/page?x=1#section" =
      "https://example.com/page" ∧
    normalizeUrl "https://example.com" "/page" = "https://example.com/page" ∧
    normalizeUrl "https://example.com/blog/post" "../about" =
      "https://example.com/about" ∧
    ((crawlRun queryPairWeb 5 "https://example.com").getD initState).internal_urls =
      ["https://example.com/page"] ∧
    ((crawlRun queryPairWeb 5 "https://example.com").getD
      initState).fetchLog.count "https://example.com/page" = 1 :=
  ⟨normalizeUrl_no_qf, by decide, by decide, by decide, by decide, by decide⟩

/-- C5 (amended): a failed fetch of any page — the seed included — logs one
diagnostic line and the crawl continues with the remaining links; a run whose
seed fetch fails still completes normally with exit code 0, not 1. -/
theorem fetch_failure_logs_and_continues {web : Web} {l : String}
    (hfail : web l = none) (maxUrls : Int) (f : Nat) (ls : List String)
    (s : CrawlState) (hb : ¬(s.total_urls_visited : Int) > maxUrls) :
    get_all_website_links web l s =
      ([], { s with fetchLog := s.fetchLog ++ [l],
                    failures := s.failures ++ [l] }) ∧
    crawlAux web maxUrls (f + 1 + 1) (.inr (l :: ls)) s =
      crawlAux web maxUrls (f + 1) (.inr ls) (visitFail s l) ∧
    (mainRun deadWeb ["http://a.x/"]).1 = 0 :=
  ⟨gawl_fail hfail s, crawl_continue_after_fail hfail maxUrls f ls s hb, by decide⟩

theorem fetch_failure_logs_and_continues_witness :
    deadWeb "http://b.x/" = none ∧
    ¬((initState.total_urls_visited : Int) > 5) ∧
    (get_all_website_links deadWeb "http://b.x/" initState =
      ([], { initState with fetchLog := initState.fetchLog ++ ["http://b.x/"],
                            failures := initState.failures ++ ["http://b.x/"] }) ∧
      crawlAux deadWeb 5 (0 + 1 + 1) (.inr ["http://b.x/"]) initState =
        crawlAux deadWeb 5 (0 + 1) (.inr []) (visitFail initState "http://b.x/") ∧
      (mainRun deadWeb ["http://a.x/"]).1 = 0) :=
  ⟨rfl, by decide,
    fetch_failure_logs_and_continues rfl 5 0 [] initState (by decide)⟩

/-- C5 counterexample: when the seed fetch itself fails the run is not
aborted with exit code 1 — it finishes with exit code 0, having printed the
one diagnostic line. -/
theorem seed_fetch_failure_exits_zero :
    (mainRun deadWeb ["http://a.x/"]).1 = 0 ∧
    (mainRun deadWeb ["http://a.x/"]).1 ≠ 1 ∧
    (mainRun deadWeb ["http://a.x/"]).2.failures = ["http://a.x/"] := by decide

/-- C6 (amended): a mailto href whose remainder matches the email pattern is
recorded as exactly that address (deduplicated, nothing else changes); a
mailto href that fails the pattern is NOT simply dropped — it falls through
to URL handling (shown separately to end up in the external set). -/
theorem mailto_validation_and_extraction :
    (∀ (pageUrl : String) (domain : List Char) (acc : List String × CrawlState)
      (href email : String), is_mail_link href = some email →
        processHref pageUrl domain acc href =
          (if email ∈ acc.2.email_addresses then acc
           else (acc.1, { acc.2 with email_addresses :=
              acc.2.email_addresses ++ [email] }))) ∧
    is_mail_link "mailto:a@b.com" = some "a@b.com" ∧
    ((crawlRun mailtoWeb 5 "https://example.com").getD
      initState).email_addresses = ["a@b.com"] := by
  refine ⟨?_, by decide, by decide⟩
  intro pageUrl domain acc href email hm
  have h0 : href ≠ "" := by
    intro h
    subst h
    have hnone : is_mail_link "" = none := rfl
    rw [hnone] at hm
    exact Option.noConfusion hm
  unfold processHref
  rw [if_neg h0, hm]

theorem mailto_validation_and_extraction_witness :
    is_mail_link "mailto:a@b.com" = some "a@b.com" ∧
    processHref "https://example.com" [] ([], initState) "mailto:a@b.com" =
      (if "a@b.com" ∈ initState.email_addresses then ([], initState)
       else ([], { initState with email_addresses :=
          initState.email_addresses ++ ["a@b.com"] })) :=
  ⟨by decide, (mailto_validation_and_extraction).1 "https://example.com" []
    ([], initState) "mailto:a@b.com" "a@b.com" (by decide)⟩

/-- C6 counterexample: the malformed href mailto:not-an-email fails the email
pattern, but something IS recorded: it is resolved as a URL and stored in the
external set as mailto://not-an-email. -/
theorem invalid_mailto_recorded_as_external :
    is_mail_link "mailto:not-an-email" = none ∧
    ((crawlRun mailtoWeb 5 "https://example.com").getD initState).external_urls =
      ["mailto://not-an-email"] := by decide

/-- C7 (amended): argparse rejects only malformed argument lists with exit
code 2; the seed URL string itself is never validated — any single positional
argument is accepted and the run exits 0. -/
theorem no_seed_validation_exit_codes :
    (∀ u : String, parseArgs [u] = some (u, 30)) ∧
    (∀ (web : Web) (u : String), (mainRun web [u]).1 = 0) ∧
    parseArgs [] = none ∧
    (mainRun deadWeb ["-m", "x", "http://a.x/"]).1 = 2 :=
  ⟨fun u => rfl, fun web u => rfl, rfl, by decide⟩

/-- C7 counterexample: the seed argument "not-a-url" has neither scheme nor
host, yet the program does not exit with code 2 — it runs the crawl on it
(one fetch attempt) and exits 0. -/
theorem invalid_seed_url_accepted :
    is_valid "not-a-url" = false ∧
    (mainRun deadWeb ["not-a-url"]).1 = 0 ∧
    (mainRun deadWeb ["not-a-url"]).2.fetchLog = ["not-a-url"] := by decide

/-- C8: every URL stored in the internal or external set is a normalized
target — absolute with scheme and host and free of query/fragment — at the
start, after every crawl step, and at the end of every run. -/
theorem stored_urls_are_normalized_targets :
    (∀ (web : Web) (maxUrls : Int) (fuel : Nat) (w : Sum String (List String))
      (s r : CrawlState), crawlAux web maxUrls fuel w s = some r →
        stateUrlsOk s → stateUrlsOk r) ∧
    stateUrlsOk initState ∧
    ∀ (web : Web) (maxUrls : Int) (url : String),
      stateUrlsOk ((crawlRun web maxUrls url).getD initState) := by
  refine ⟨fun web maxUrls fuel w s r => crawlAux_urlsOk web maxUrls fuel w s r,
    by constructor <;> simp [initState], ?_⟩
  intro web maxUrls url
  obtain ⟨r, hr⟩ := crawlRun_isSome web maxUrls url
  rw [hr, Option.getD_some]
  exact crawlRun_urlsOk web maxUrls url r hr

theorem stored_urls_are_normalized_targets_witness :
    stateUrlsOk (visitFail initState "http://a.x/") :=
  (stored_urls_are_normalized_targets).1 deadWeb 5 1 (.inl "http://a.x/")
    initState (visitFail initState "http://a.x/") (by decide)
    (by constructor <;> simp [initState])

/-- C9: for every web, budget and seed the crawl reaches its natural end
within the fuel bound (the recursion terminates), and the number of crawl
invocations — the final visit counter — is bounded by max_urls + 1. -/
theorem crawl_always_terminates (web : Web) (maxUrls : Int) (url : String) :
    (crawlRun web maxUrls url).isSome = true ∧
    ((crawlRun web maxUrls url).getD initState).total_urls_visited ≤
      maxUrls.toNat + 1 := by
  obtain ⟨r, hr⟩ := crawlRun_isSome web maxUrls url
  rw [hr]
  refine ⟨rfl, ?_⟩
  rw [Option.getD_some]
  exact crawlRun_total_le web maxUrls url r hr

/-- C10 (amended): normalization is idempotent whenever the page URL itself
parses with a lowercase relative-capable scheme and a nonempty host — the
situation for every URL actually fetched from a well-formed seed. -/
theorem normalize_idempotent_on_absolute_base (base href : String)
    (h1 : lowSchemeOk (urlparse base).scheme)
    (h2 : (urlparse base).scheme ∈ uses_relative)
    (h3 : (urlparse base).netloc ≠ []) :
    normalizeUrl base (normalizeUrl base href) = normalizeUrl base href :=
  normalizeUrl_idem h1 h2 h3

theorem normalize_idempotent_on_absolute_base_witness :
    lowSchemeOk (urlparse "https://example.com").scheme ∧
    (urlparse "https://example.com").scheme ∈ uses_relative ∧
    (urlparse "https://example.com").netloc ≠ [] ∧
    normalizeUrl "https://example.com"
        (normalizeUrl "https://example.com" "/page") =
      normalizeUrl "https://example.com" "/page" :=
  ⟨⟨by decide, by decide⟩, by decide, by decide,
    normalize_idempotent_on_absolute_base "https://example.com" "/page"
      ⟨by decide, by decide⟩ (by decide) (by decide)⟩

/-- C10 counterexample: for a page URL with no scheme or host the rebuild
step manufactures the prefix "://", and normalizing a second time changes the
string again, so normalization is not idempotent for every href. -/
theorem normalize_not_idempotent_in_general :
    normalizeUrl "x" (normalizeUrl "x" "y") ≠ normalizeUrl "x" "y" := by decide

end LinkCrawler
